import Mathlib

set_option linter.unusedVariables false

deriving instance DecidableEq for Except

/-!
Shallow embedding of `src/paperqa/llms.py` (the vector-store retrieval core):
`cosine_similarity`, `VectorStore.max_marginal_relevance_search`,
`NumpyVectorStore.similarity_search`, `NumpyVectorStore.partitioned_similarity_search`,
`VectorStore.add_texts_and_embeddings`, together with models of the numpy
primitives the code calls (`np.argsort` default introsort, `np.argmax`,
`np.nan_to_num`, broadcasting), and theorems settling the specification claims.

Modelling conventions, used throughout:
* numpy float64 values are modelled by `EF`: an exact rational, `+inf`, `-inf`, or
  `NaN`, with IEEE propagation rules.  Finite-precision rounding and overflow are
  not modelled; the claims under study are about special-value propagation,
  ordering and control flow, not rounding.
* Python list indexing is modelled with `List.getD` and an explicit default.
  Every theorem below only ever evaluates these lookups in bounds; at an
  out-of-bounds index Python would raise, which no reachable path here does.
* Fallible steps return `Except Err _`; mutable state (the embedder's mode flag
  and call counter, the store's `_texts_filter`) is passed explicitly.
-/

namespace PaperQA

/-- Extended float: a finite rational, one of the IEEE infinities, or NaN. -/
inductive EF where
  | fin (q : ℚ)
  | pinf
  | ninf
  | nan
deriving DecidableEq, Repr

namespace EF

def isNan : EF → Bool
  | nan => true
  | _ => false

def isFin : EF → Bool
  | fin _ => true
  | _ => false

/-- IEEE `x <= y`: every comparison involving NaN is false. -/
def le : EF → EF → Bool
  | nan, _ => false
  | _, nan => false
  | ninf, _ => true
  | _, pinf => true
  | pinf, _ => false
  | fin _, ninf => false
  | fin a, fin b => a ≤ b

/-- IEEE `x < y`: every comparison involving NaN is false. -/
def lt : EF → EF → Bool
  | nan, _ => false
  | _, nan => false
  | _, ninf => false
  | ninf, _ => true
  | pinf, _ => false
  | fin _, pinf => true
  | fin a, fin b => a < b

def neg : EF → EF
  | fin q => fin (-q)
  | pinf => ninf
  | ninf => pinf
  | nan => nan

def add : EF → EF → EF
  | nan, _ => nan
  | _, nan => nan
  | fin a, fin b => fin (a + b)
  | pinf, ninf => nan
  | ninf, pinf => nan
  | pinf, _ => pinf
  | _, pinf => pinf
  | ninf, _ => ninf
  | _, ninf => ninf

def sub (x y : EF) : EF := add x (neg y)

def mul : EF → EF → EF
  | nan, _ => nan
  | _, nan => nan
  | fin a, fin b => fin (a * b)
  | pinf, pinf => pinf
  | pinf, ninf => ninf
  | ninf, pinf => ninf
  | ninf, ninf => pinf
  | pinf, fin b => if 0 < b then pinf else if b < 0 then ninf else nan
  | ninf, fin b => if 0 < b then ninf else if b < 0 then pinf else nan
  | fin a, pinf => if 0 < a then pinf else if a < 0 then ninf else nan
  | fin a, ninf => if 0 < a then ninf else if a < 0 then pinf else nan

/-- Largest finite float64, exactly. -/
def dblMax : ℚ := (2 ^ 53 - 1) * 2 ^ 971

/-- Model of `np.nan_to_num(x, nan=-np.inf)`: NaN becomes `-inf` (the replacement
value requested by the code), and pre-existing infinities are clamped to the
extreme finite doubles, as numpy does by default. -/
def nanToNum : EF → EF
  | nan => ninf
  | pinf => fin dblMax
  | ninf => fin (-dblMax)
  | fin q => fin q

end EF

/-- Sum of squares of a rational vector. -/
def sumSq (v : List ℚ) : ℚ := v.foldl (fun a x => a + x * x) 0

/-- Integer square root by bounded search (evaluated only at small concrete
inputs; exact on perfect squares). -/
def isqrt (n : ℕ) : ℕ := ((List.range (n + 1)).filter (fun m => m * m ≤ n)).foldl max 0

/-- Model of the float square root on nonnegative rationals.  Exact whenever the
numerator and denominator are perfect squares; every concrete vector appearing
in a theorem of this file has a perfect-square sum of squares, so the model is
exact there.  (The true float sqrt is irrational in general and has no place in
a rational model; no theorem below reasons about sqrt at non-perfect squares.) -/
def ratSqrt (q : ℚ) : ℚ := mkRat (isqrt q.num.toNat) (isqrt q.den)

/-- Model of `np.linalg.norm(row)`. -/
def ratNorm (v : List ℚ) : ℚ := ratSqrt (sumSq v)

def dot (a b : List ℚ) : ℚ := (List.zip a b).foldl (fun acc p => acc + p.1 * p.2) 0

/-- Model of `a @ b.T` on row-major matrices. -/
def matmulT (a b : List (List ℚ)) : List (List ℚ) :=
  a.map (fun ra => b.map (fun rb => dot ra rb))

/-- IEEE division of finite rationals: `0/0 = NaN`, `x/0 = ±inf`. -/
def efDiv (x y : ℚ) : EF :=
  if y = 0 then (if x = 0 then .nan else if 0 < x then .pinf else .ninf)
  else .fin (x / y)

/-- Numpy broadcasting of elementwise `*` on two 1-D arrays: defined when the
lengths agree or one of them is 1, a `ValueError` (`none`) otherwise. -/
def broadcastMul (x y : List ℚ) : Option (List ℚ) :=
  if x.length = y.length then some (List.zipWith (· * ·) x y)
  else if x.length = 1 then some (y.map (fun b => x.headD 0 * b))
  else if y.length = 1 then some (x.map (fun a => a * y.headD 0))
  else none

/-- Numpy broadcasting of one matrix row divided by a 1-D array (trailing axes
aligned): elementwise when lengths agree, scalar when the divisor has length 1,
and an outer-style row of length `d.length` when the row has length 1. -/
def broadcastDivRow (r : List ℚ) (d : List ℚ) : Option (List EF) :=
  if d.length = r.length then some (List.zipWith efDiv r d)
  else if d.length = 1 then some (r.map (fun a => efDiv a (d.headD 0)))
  else if r.length = 1 then some (d.map (fun b => efDiv (r.headD 0) b))
  else none

/-- All rows of both operands must share one width, or `a @ b.T` raises. -/
def dimsOk (a b : List (List ℚ)) : Bool :=
  match a ++ b with
  | [] => true
  | r :: rs => rs.all (fun x => x.length = r.length)

/-- Model of `cosine_similarity(a, b)` from `src/paperqa/llms.py`:
`norm_product = np.linalg.norm(a, axis=1) * np.linalg.norm(b, axis=1)` followed by
`a @ b.T / norm_product`, with numpy's broadcasting semantics (so it is NOT the
textbook cosine matrix: the division pairs `norm_product` with the column index). -/
def cosine_similarity (a b : List (List ℚ)) : Option (List (List EF)) :=
  if dimsOk a b then
    match broadcastMul (a.map ratNorm) (b.map ratNorm) with
    | none => none
    | some np => (matmulT a b).mapM (fun r => broadcastDivRow r np)
  else none

/-! Model of `np.argsort` with the default `kind='quicksort'`: a transcription of
numpy's `npysort` argsort introsort (`aquicksort_` with `SMALL_QUICKSORT = 15`,
median-of-three pivot, Hoare-style partition, insertion sort on small segments,
and the `aheapsort_` fallback after `2 * msb(n)` partition rounds).  The
transcription matters because the default kind is NOT a stable sort: the tie
order it produces is exactly what the repository's `similarity_search` returns.
Loops are given ample fuel; every fueled loop terminates well before its fuel on
the inputs evaluated in this file, and the only general fact the theorems below
use is that every step preserves the length of the index array. -/

def vAt (v : List EF) (ts : List ℕ) (p : ℕ) : EF := v.getD (ts.getD p 0) EF.nan

def swapT (ts : List ℕ) (i j : ℕ) : List ℕ :=
  let vi := ts.getD i 0
  let vj := ts.getD j 0
  (ts.set i vj).set j vi

/-- The `do ++pi; while (LT(v[*pi], vp));` scan. -/
def qsScanUp (v : List EF) (ts : List ℕ) (vp : EF) : ℕ → ℕ → ℕ
  | 0, pi => pi + 1
  | fuel + 1, pi =>
    let pi' := pi + 1
    if EF.lt (vAt v ts pi') vp then qsScanUp v ts vp fuel pi' else pi'

/-- The `do --pj; while (LT(vp, v[*pj]));` scan. -/
def qsScanDown (v : List EF) (ts : List ℕ) (vp : EF) : ℕ → ℕ → ℕ
  | 0, pj => pj - 1
  | fuel + 1, pj =>
    let pj' := pj - 1
    if EF.lt vp (vAt v ts pj') then qsScanDown v ts vp fuel pj' else pj'

/-- The Hoare partition exchange loop; returns the final index array and `pi`. -/
def qsPartLoop (v : List EF) (vp : EF) : ℕ → List ℕ → ℕ → ℕ → List ℕ × ℕ
  | 0, ts, pi, _ => (ts, pi)
  | fuel + 1, ts, pi, pj =>
    let pi' := qsScanUp v ts vp (ts.length + 1) pi
    let pj' := qsScanDown v ts vp (ts.length + 1) pj
    if pi' ≥ pj' then (ts, pi')
    else qsPartLoop v vp fuel (swapT ts pi' pj') pi' pj'

/-- Inner shift loop of the insertion sort over segment `[pl, pr]`
(`while (pj > pl && LT(vp, v[*pk])) { *pj-- = *pk--; } *pj = vi;`).
At `pj = 0` the guard `pl < pj` is false, so only the final write remains. -/
def qsInsertInner (v : List EF) (pl : ℕ) (vi : ℕ) : ℕ → List ℕ → List ℕ
  | 0, ts => ts.set 0 vi
  | pj + 1, ts =>
    if pl < pj + 1 ∧ EF.lt (v.getD vi EF.nan) (vAt v ts pj) then
      qsInsertInner v pl vi pj (ts.set (pj + 1) (ts.getD pj 0))
    else ts.set (pj + 1) vi

def qsInsertLoop (v : List EF) (pl : ℕ) : ℕ → ℕ → List ℕ → List ℕ
  | 0, _, ts => ts
  | c + 1, pi, ts => qsInsertLoop v pl c (pi + 1) (qsInsertInner v pl (ts.getD pi 0) pi ts)

/-- Heapsort uses 1-based indexing into the segment starting at `pl`. -/
def haG (ts : List ℕ) (pl i : ℕ) : ℕ := ts.getD (pl + i - 1) 0

def haS (ts : List ℕ) (pl i x : ℕ) : List ℕ := ts.set (pl + i - 1) x

/-- Sift-down of `aheapsort_`, ending with `a[i] = tmp`. -/
def haSift (v : List EF) (pl tmp nn : ℕ) : ℕ → ℕ → ℕ → List ℕ → List ℕ
  | 0, i, _, ts => haS ts pl i tmp
  | fuel + 1, i, j, ts =>
    if j ≤ nn then
      let j := if j < nn ∧ EF.lt (v.getD (haG ts pl j) EF.nan) (v.getD (haG ts pl (j + 1)) EF.nan)
               then j + 1 else j
      if EF.lt (v.getD tmp EF.nan) (v.getD (haG ts pl j) EF.nan) then
        haSift v pl tmp nn fuel j (j + j) (haS ts pl i (haG ts pl j))
      else haS ts pl i tmp
    else haS ts pl i tmp

def haHeapify (v : List EF) (pl nn : ℕ) : ℕ → List ℕ → List ℕ
  | 0, ts => ts
  | l + 1, ts =>
    haHeapify v pl nn l (haSift v pl (haG ts pl (l + 1)) nn (nn + 2) (l + 1) ((l + 1) * 2) ts)

def haPop (v : List EF) (pl : ℕ) : ℕ → List ℕ → List ℕ
  | 0, ts => ts
  | 1, ts => ts
  | n + 2, ts =>
    let tmp := haG ts pl (n + 2)
    let ts := haS ts pl (n + 2) (haG ts pl 1)
    let ts := haSift v pl tmp (n + 1) (n + 3) 1 2 ts
    haPop v pl (n + 1) ts

/-- The `aheapsort_` fallback on the segment of length `num` starting at `pl`. -/
def aheapsortSeg (v : List EF) (ts : List ℕ) (pl num : ℕ) : List ℕ :=
  haPop v pl num (haHeapify v pl num (num / 2) ts)

/-- Outer introsort loop with its explicit segment stack and depth limit. -/
def qsOuter (v : List EF) : ℕ → List (ℕ × ℕ) → ℕ → ℕ → ℤ → List ℕ → List ℕ
  | 0, _, _, _, _, ts => ts
  | fuel + 1, stack, pl, pr, depth, ts =>
    if pr > pl + 15 then
      if depth < 0 then
        let ts := aheapsortSeg v ts pl (pr - pl + 1)
        match stack with
        | [] => ts
        | (pl', pr') :: rest => qsOuter v fuel rest pl' pr' (depth - 1) ts
      else
        let pm := pl + (pr - pl) / 2
        let ts := if EF.lt (vAt v ts pm) (vAt v ts pl) then swapT ts pm pl else ts
        let ts := if EF.lt (vAt v ts pr) (vAt v ts pm) then swapT ts pr pm else ts
        let ts := if EF.lt (vAt v ts pm) (vAt v ts pl) then swapT ts pm pl else ts
        let vp := vAt v ts pm
        let ts := swapT ts pm (pr - 1)
        let pr1 := pr - 1
        let res := qsPartLoop v vp (ts.length + 1) ts pl pr1
        let ts := res.1
        let pi := res.2
        let ts := swapT ts pi pr1
        if pi - pl < pr - pi then
          qsOuter v fuel ((pi + 1, pr) :: stack) pl (pi - 1) (depth - 1) ts
        else
          qsOuter v fuel ((pl, pi - 1) :: stack) (pi + 1) pr (depth - 1) ts
    else
      let ts := qsInsertLoop v pl (pr - pl) (pl + 1) ts
      match stack with
      | [] => ts
      | (pl', pr') :: rest => qsOuter v fuel rest pl' pr' depth ts

/-- Model of `np.argsort(v)` (ascending, default `kind='quicksort'`). -/
def npArgsort (v : List EF) : List ℕ :=
  match v.length with
  | 0 => []
  | n + 1 =>
    qsOuter v (8 * (n + 1) + 64) [] 0 n (2 * (Nat.log2 (n + 1) : ℤ)) (List.range (n + 1))

/-- Accumulator loop of numpy's `argmax` for floats: an element replaces the
current best on `!(a <= mp)` (so a NaN wins and stops the scan, matching
`loops.c.src`). -/
def argmaxGo : List EF → EF → ℕ → ℕ → ℕ
  | [], _, m, _ => m
  | a :: rest, mp, m, i =>
    if !(EF.le a mp) then
      if a.isNan then i else argmaxGo rest a i (i + 1)
    else argmaxGo rest mp m (i + 1)

/-- Model of `np.argmax(v)`: index of the first NaN if any, else the first
occurrence of the maximum. -/
def npArgmax : List EF → ℕ
  | [] => 0
  | x :: rest => if x.isNan then 0 else argmaxGo rest x 0 1

/-- Numpy's `arr.max(axis=1)` reduction on one row: NaN-propagating maximum.
Numpy rejects an empty reduction axis; the code only ever reduces over the
nonempty selected set, so the `[]` case is unreachable. -/
def npMaxL : List EF → EF
  | [] => EF.nan
  | x :: xs =>
    xs.foldl (fun a b => if a.isNan || b.isNan then EF.nan else if EF.le a b then b else a) x

/-! The store model.  `Embeddable` is the opaque payload plus embedding of
`paperqa.types.Text`; the embedding model (`llmclient.EmbeddingModel`) is the
external collaborator: a deterministic function of the mode flag and the text,
which may fail.  Its process-wide mutable state (mode flag, and a call counter
used to state the frame claims) is `EmbSt`, threaded explicitly. -/

inductive EmbeddingModes where
  | query
  | document
deriving DecidableEq, Repr

inductive Err where
  | value
  | typeE
  | embed
deriving DecidableEq, Repr

structure Embeddable where
  payload : ℕ
  embedding : List ℚ
deriving DecidableEq, Repr

/-- Default for out-of-bounds list indexing (see the module comment). -/
def dEmb : Embeddable := ⟨0, []⟩

structure EmbedderM where
  embed : EmbeddingModes → String → Except Unit (List ℚ)

structure EmbSt where
  mode : EmbeddingModes
  calls : ℕ
deriving DecidableEq, Repr

/-- One `embed_documents([query])` call: uses the current mode, bumps the call
counter whether or not the call succeeds. -/
def embed_documents (e : EmbedderM) (es : EmbSt) (q : String) :
    Except Unit (List ℚ) × EmbSt :=
  (e.embed es.mode q, { es with calls := es.calls + 1 })

structure NumpyVectorStore where
  mmr_lambda : ℚ
  texts_hashes : Finset ℤ
  texts : List Embeddable
  emb_matrix : Option (List (List ℚ))
  texts_filter : Option (List Bool)
deriving DecidableEq

/-- Modelled from the spec (hash function only): Python's `hash(t)` on a `Text`
is defined outside this repository's sources (`paperqa.types` / `llmclient`);
the spec says identity is a derived content hash, so the hash is an arbitrary
parameter `h`.  The body is the code of `VectorStore.add_texts_and_embeddings`
followed by `NumpyVectorStore.add_texts_and_embeddings`: update the hash set,
extend `texts`, rebuild the embedding matrix from all texts. -/
def add_texts_and_embeddings (h : Embeddable → ℤ) (st : NumpyVectorStore)
    (new : List Embeddable) : NumpyVectorStore :=
  { st with
    texts_hashes := st.texts_hashes ∪ (new.map h).toFinset,
    texts := st.texts ++ new,
    emb_matrix := some ((st.texts ++ new).map (·.embedding)) }

/-- Model of `VectorStore.__len__`. -/
def storeLen (st : NumpyVectorStore) : ℕ := st.texts_hashes.card

/-- Python slice `l[:k]` for an `int` k: a negative k drops the last `|k|`. -/
def pyTake {α : Type} (k : ℤ) (l : List α) : List α :=
  if 0 ≤ k then l.take k.toNat else l.take ((l.length : ℤ) + k).toNat

/-- Model of `np.where(mask)[0]`. -/
def maskIdxFrom : List Bool → ℕ → List ℕ
  | [], _ => []
  | b :: bs, i => if b then i :: maskIdxFrom bs (i + 1) else maskIdxFrom bs (i + 1)

def maskIdx (mask : List Bool) : List ℕ := maskIdxFrom mask 0

/-- Model of boolean-mask row selection `m[mask]`. -/
def maskRows {α : Type} (mask : List Bool) (rows : List α) : List α :=
  (List.zip mask rows).filterMap (fun p => if p.1 then some p.2 else none)

/-- Model of `NumpyVectorStore.similarity_search`.  Faithful step order:
clamp k, early return on `k == 0`, set QUERY mode, embed, restore DOCUMENT
mode, select the active matrix through `_texts_filter`, cosine scores,
`nan_to_num(nan=-inf)`, `argsort(-scores)`, slice, resolve indices. -/
def similarity_search (st : NumpyVectorStore) (e : EmbedderM) (q : String)
    (k : ℤ) (es : EmbSt) : Except Err (List Embeddable × List EF) × EmbSt :=
  let k := min k (st.texts.length : ℤ)
  if k = 0 then (.ok ([], []), es)
  else
    let es := { es with mode := .query }
    let r := embed_documents e es q
    let es := r.2
    match r.1 with
    | .error _ => (.error .embed, es)
    | .ok qv =>
      let es := { es with mode := .document }
      match st.emb_matrix with
      | none => (.error .typeE, es)
      | some m0 =>
        let oi :=
          match st.texts_filter with
          | some f => (maskIdx f, maskRows f m0)
          | none => (List.range st.texts.length, m0)
        match cosine_similarity [qv] oi.2 with
        | none => (.error .value, es)
        | some simRows =>
          let canon := (simRows.getD 0 []).map EF.nanToNum
          let si := npArgsort (canon.map EF.neg)
          (.ok ((pyTake k (si.map (fun j => (oi.1).getD j st.texts.length))).map
                  (fun i => st.texts.getD i dEmb),
                (pyTake k si).map (fun j => canon.getD j (EF.fin 0))), es)

/-- Model of `itertools.zip_longest(*ls)` chained and filtered of its `None`
fill values (the elements themselves are never `None` here). -/
def maxLenL {α : Type} (ls : List (List α)) : ℕ := ls.foldr (fun l m => max l.length m) 0

def roundRobin {α : Type} (ls : List (List α)) : List α :=
  (List.range (maxLenL ls)).flatMap (fun i => ls.filterMap (fun l => l[i]?))

/-- Ascending distinct values: model of `np.unique`. -/
def insUnique (x : ℤ) : List ℤ → List ℤ
  | [] => [x]
  | y :: ys => if x < y then x :: y :: ys else if x = y then y :: ys else y :: insUnique x ys

def uniqueSorted (l : List ℤ) : List ℤ := l.foldr insUnique []

/-- Loop body of `partitioned_similarity_search`: for each partition value,
install the boolean filter on the store, search, and collect; on an exception
the filter is left installed (the code has no try/finally).  After the loop the
filter is reset and the per-partition lists are merged round-robin. -/
def partitionedGo (st : NumpyVectorStore) (e : EmbedderM) (q : String) (k : ℤ)
    (keyList : List ℤ) :
    List ℤ → List (List Embeddable) → List (List EF) → EmbSt →
    Except Err (List Embeddable × List EF) × NumpyVectorStore × EmbSt
  | [], accT, accS, es =>
    (.ok (pyTake k (roundRobin accT), pyTake k (roundRobin accS)),
     { st with texts_filter := none }, es)
  | p :: rest, accT, accS, es =>
    let st' := { st with texts_filter := some (keyList.map (· == p)) }
    match similarity_search st' e q k es with
    | (.error er, es') => (.error er, st', es')
    | (.ok (ts, ss), es') => partitionedGo st e q k keyList rest (accT ++ [ts]) (accS ++ [ss]) es'

/-- Model of `NumpyVectorStore.partitioned_similarity_search`. -/
def partitioned_similarity_search (st : NumpyVectorStore) (e : EmbedderM)
    (q : String) (k : ℤ) (f : Embeddable → ℤ) (es : EmbSt) :
    Except Err (List Embeddable × List EF) × NumpyVectorStore × EmbSt :=
  let keyList := st.texts.map f
  partitionedGo st e q k keyList (uniqueSorted keyList) [] [] es

/-- The `mmr_scores` value of one candidate in one loop iteration:
`mmr_lambda * np_scores - (1 - mmr_lambda) * max_sim_to_selected`. -/
def mmrScoreAt (lam : ℚ) (scores : List EF) (simM : List (List EF))
    (sel : List ℕ) (i : ℕ) : EF :=
  EF.sub (EF.mul (EF.fin lam) (scores.getD i (EF.fin 0)))
    (EF.mul (EF.fin (1 - lam))
      (npMaxL (sel.map (fun j => (simM.getD i []).getD j (EF.fin 0)))))

/-- The `while len(selected_indices) < k` loop.  One fuel unit per iteration;
called with fuel `k.toNat`, which bounds the iteration count.  The
`m ∈ rem` guard models `remaining_indices.remove(...)` raising `ValueError`
when the argmax lands on an already selected index. -/
def mmrLoop (lam : ℚ) (k : ℤ) (scores : List EF) (simM : List (List EF)) :
    ℕ → List ℕ → List ℕ → Except Err (List ℕ)
  | 0, sel, _ => if (sel.length : ℤ) < k then .error .value else .ok sel
  | fuel + 1, sel, rem =>
    if (sel.length : ℤ) < k then
      let masked := (List.range scores.length).map
        (fun i => if i ∈ sel then EF.ninf else mmrScoreAt lam scores simM sel i)
      let m := npArgmax masked
      if m ∈ rem then mmrLoop lam k scores simM fuel (sel ++ [m]) (rem.erase m)
      else .error .value
    else .ok sel

/-- The post-fetch stage of `max_marginal_relevance_search`: the fast path
(candidate count ≤ k or `mmr_lambda >= 1.0` returns the candidates unchanged),
else the similarity matrix and the greedy loop seeded with `[0]`. -/
def mmrPhase (lam : ℚ) (k : ℤ) (texts : List Embeddable) (scores : List EF) :
    Except Err (List Embeddable × List EF) :=
  if (texts.length : ℤ) ≤ k ∨ 1 ≤ lam then .ok (texts, scores)
  else
    match cosine_similarity (texts.map (·.embedding)) (texts.map (·.embedding)) with
    | none => .error .value
    | some simM =>
      match mmrLoop lam k scores simM k.toNat [0] (List.range' 1 (texts.length - 1)) with
      | .error er => .error er
      | .ok sel =>
        .ok (sel.map (fun i => texts.getD i dEmb),
             sel.map (fun i => scores.getD i (EF.fin 0)))

/-- Model of `VectorStore.max_marginal_relevance_search`. -/
def max_marginal_relevance_search (st : NumpyVectorStore) (e : EmbedderM)
    (q : String) (k fetch_k : ℤ) (part : Option (Embeddable → ℤ)) (es : EmbSt) :
    Except Err (List Embeddable × List EF) × NumpyVectorStore × EmbSt :=
  if fetch_k < k then (.error .value, st, es)
  else
    match part with
    | none =>
      match similarity_search st e q fetch_k es with
      | (.error er, es') => (.error er, st, es')
      | (.ok (texts, scores), es') => (mmrPhase st.mmr_lambda k texts scores, st, es')
    | some f =>
      match partitioned_similarity_search st e q fetch_k f es with
      | (.error er, st', es') => (.error er, st', es')
      | (.ok (texts, scores), st', es') => (mmrPhase st.mmr_lambda k texts scores, st', es')

/-! Specification-side definitions, written from the spec's words, to be compared
with the code model (refinement claims C4 and C5). -/

/-- Spec §4.3 `similarityTopK` on one corpus, given the query vector: cosine
similarity of the query against every row, NaN canonicalized to `-inf`, sorted
descending, top k.  Scoring one row against one query vector is
`dot / (norm * norm)`, the per-row reading of spec §4.2. -/
def specTopK (corpus : List Embeddable) (qv : List ℚ) (k : ℕ) :
    List Embeddable × List EF :=
  let scored := corpus.map
    (fun t => EF.nanToNum (efDiv (dot qv t.embedding) (ratNorm qv * ratNorm t.embedding)))
  let si := npArgsort (scored.map EF.neg)
  ((si.map (fun j => corpus.getD j dEmb)).take k,
   (si.map (fun j => scored.getD j (EF.fin 0))).take k)

/-- Spec §4.3 `partitionedSimilarityTopK`: distinct partition keys in ascending
order, a top-k search scoped to each partition's sub-corpus, round-robin
interleave, truncate to k. -/
def specPartitionedTopK (corpus : List Embeddable) (f : Embeddable → ℤ)
    (qv : List ℚ) (k : ℕ) : List Embeddable × List EF :=
  let keys := uniqueSorted (corpus.map f)
  let per := keys.map (fun p => specTopK (corpus.filter (fun t => f t == p)) qv k)
  ((roundRobin (per.map Prod.fst)).take k, (roundRobin (per.map Prod.snd)).take k)

/-- Spec §4.4 step 3, one step: the earliest not-yet-selected candidate whose
mmr score is greatest (ties broken by earliest original index); `none` when no
candidate maximizes (possible only when scores are incomparable, i.e. NaN). -/
def specPickMMR (lam : ℚ) (scores : List EF) (simM : List (List EF))
    (sel : List ℕ) : Option ℕ :=
  (List.range scores.length).find? (fun i =>
    decide (i ∉ sel) &&
    (List.range scores.length).all (fun j =>
      decide (j ∈ sel) || EF.le (mmrScoreAt lam scores simM sel j) (mmrScoreAt lam scores simM sel i)))

/-- Spec §4.4 step 3, the greedy loop: seed with index 0, repeat until
`|selected| = k`. -/
def specMMRLoop (lam : ℚ) (k : ℤ) (scores : List EF) (simM : List (List EF)) :
    ℕ → List ℕ → Option (List ℕ)
  | 0, sel => if (sel.length : ℤ) < k then none else some sel
  | fuel + 1, sel =>
    if (sel.length : ℤ) < k then
      match specPickMMR lam scores simM sel with
      | some m => specMMRLoop lam k scores simM fuel (sel ++ [m])
      | none => none
    else some sel

/-- The greedy selection of spec §4.4 on the fetched candidates (using the
code's similarity matrix, the subject of claim C2, since claim C4 is about the
selection loop, not the similarity values). -/
def specMMRSelectIdx (lam : ℚ) (k : ℤ) (texts : List Embeddable)
    (scores : List EF) : Option (List ℕ) :=
  match cosine_similarity (texts.map (·.embedding)) (texts.map (·.embedding)) with
  | none => none
  | some simM => specMMRLoop lam k scores simM k.toNat [0]

/-- Claim C4 at one input: the MMR stage returns exactly the spec's greedy
selection, paired with the original relevance scores, in selection order. -/
def MMRMatchesGreedy (lam : ℚ) (k : ℤ) (texts : List Embeddable)
    (scores : List EF) : Prop :=
  ∃ sel, specMMRSelectIdx lam k texts scores = some sel ∧
    mmrPhase lam k texts scores
      = .ok (sel.map (fun i => texts.getD i dEmb),
             sel.map (fun i => scores.getD i (EF.fin 0)))

/-! Theorems.  Concrete stores are written inline; every concrete store is
well-formed (its matrix is the matrix of its texts, no filter installed), and
every concrete embedder is a constant function of its inputs. -/

/-- Claim C1 (code_bug evidence): with `mmr_lambda = 1.0`, `k = 1`,
`fetch_k = 2` on a two-text store, `max_marginal_relevance_search` returns both
fetched candidates (the `mmr_lambda >= 1.0` fast path returns `texts, scores`
un-truncated), while `similarity_search` with the same `k = 1` returns one
item: so the fast path is NOT `similarityTopK` truncated to k. -/
theorem mmr_lambda_one_fast_path_returns_fetch_k :
    (max_marginal_relevance_search
        ⟨1, ∅, [⟨1, [1, 0]⟩, ⟨2, [0, 1]⟩], some [[1, 0], [0, 1]], none⟩
        ⟨fun _ _ => .ok [1, 0]⟩ "q" 1 2 none ⟨.document, 0⟩).1
      = .ok ([⟨1, [1, 0]⟩, ⟨2, [0, 1]⟩], [EF.fin 1, EF.fin 0]) ∧
    (similarity_search
        ⟨1, ∅, [⟨1, [1, 0]⟩, ⟨2, [0, 1]⟩], some [[1, 0], [0, 1]], none⟩
        ⟨fun _ _ => .ok [1, 0]⟩ "q" 1 ⟨.document, 0⟩).1
      = .ok ([⟨1, [1, 0]⟩], [EF.fin 1]) := by
  with_unfolding_all decide

/-- Claim C2 (code_bug evidence): `cosine_similarity` divides entry (i, j) by
`norm(A_j) * norm(B_j)` (numpy broadcasting pairs `norm_product` with the
column index), not `norm(A_i) * norm(B_j)`.  With `A = B = [[1,0],[3,4]]` the
code yields entry (1, 0) = 3 and entry (0, 1) = 3/25, where the claimed formula
gives 3/5 for both; and for m = 3, n = 2 the shapes (3,) * (2,) do not
broadcast, so the call raises instead of returning a 3 x 2 matrix. -/
theorem cosine_similarity_denominator_and_broadcast :
    cosine_similarity [[1, 0], [3, 4]] [[1, 0], [3, 4]]
      = some [[EF.fin 1, EF.fin (3 / 25)], [EF.fin 3, EF.fin 1]] ∧
    cosine_similarity [[1, 0], [3, 4], [0, 1]] [[1, 0], [3, 4]] = none := by
  with_unfolding_all decide

/-- Claim C3 (code_bug evidence): on 17 texts whose embeddings are all `[1, 0]`
(so all 17 similarity scores tie at 1), `similarity_search` returns the corpus
in the order produced by numpy's default `kind='quicksort'` argsort — the
segment is larger than the 16-element insertion-sort cutoff, one Hoare
partition round runs, and the tie order comes out `[0, 14, 13, ...]`, not the
insertion order `[0, 1, 2, ...]`.  (For 16 or fewer candidates the same
algorithm degenerates to a stable insertion sort, which is why the instability
is invisible on small corpora.) -/
theorem argsort_default_quicksort_reorders_ties :
    (similarity_search
        ⟨1, ∅, (List.range 17).map (fun i => ⟨i, [1, 0]⟩),
         some (List.replicate 17 [1, 0]), none⟩
        ⟨fun _ _ => .ok [1, 0]⟩ "q" 17 ⟨.document, 0⟩).1
      = .ok ([0, 14, 13, 12, 11, 10, 9, 15, 8, 6, 5, 4, 3, 2, 1, 7, 16].map
               (fun i => (⟨i, [1, 0]⟩ : Embeddable)),
             List.replicate 17 (EF.fin 1)) ∧
    [0, 14, 13, 12, 11, 10, 9, 15, 8, 6, 5, 4, 3, 2, 1, 7, 16].map
        (fun i => (⟨i, [1, 0]⟩ : Embeddable))
      ≠ (List.range 17).map (fun i => ⟨i, [1, 0]⟩) := by
  with_unfolding_all decide

/-- Claim C4 counterexample: candidates `[[1,0], [4,3], [0,0]]` with relevance
scores `[1, 4/5, -inf]` (exactly what `similarity_search` returns for query
`[1,0]` after NaN canonicalization), `mmr_lambda = 0`, `k = 2`, MMR path taken
(3 > 2, 0 < 1).  The zero-norm candidate's mmr score is NaN
(`0 * (-inf) = NaN`), numpy's argmax selects the first NaN, and the loop adds
that candidate even though its score does not compare greater-or-equal to the
finite mmr score `-4` of the other candidate — so no candidate "maximizing" the
mmr score exists, and the code's pick is not the spec's greedy pick. -/
theorem mmr_greedy_claim_fails_on_nan :
    ¬ MMRMatchesGreedy 0 2 [⟨1, [1, 0]⟩, ⟨2, [4, 3]⟩, ⟨3, [0, 0]⟩]
        [EF.fin 1, EF.fin (4 / 5), EF.ninf] := by
  rintro ⟨sel, hspec, -⟩
  have hnone : specMMRSelectIdx 0 2 [⟨1, [1, 0]⟩, ⟨2, [4, 3]⟩, ⟨3, [0, 0]⟩]
      [EF.fin 1, EF.fin (4 / 5), EF.ninf] = none := by
    with_unfolding_all decide
  rw [hnone] at hspec
  exact Option.noConfusion hspec

/-- Claim C6 counterexample: a one-text store whose embedder raises; the
partitioned search terminates with the embedding error and `_texts_filter` is
still installed (`some [true]`), because the loop has no try/finally. -/
theorem partition_filter_left_installed_on_error :
    (partitioned_similarity_search ⟨1, ∅, [⟨1, [1, 0]⟩], some [[1, 0]], none⟩
        ⟨fun _ _ => .error ()⟩ "q" 1 (fun _ => 0) ⟨.document, 0⟩).1
      = .error .embed ∧
    (partitioned_similarity_search ⟨1, ∅, [⟨1, [1, 0]⟩], some [[1, 0]], none⟩
        ⟨fun _ _ => .error ()⟩ "q" 1 (fun _ => 0) ⟨.document, 0⟩).2.1.texts_filter
      = some [true] := by
  with_unfolding_all decide

/-- Claim C7 counterexample: `similarity_search` with `k = -1` on a two-text
store does not fail: `min(-1, 2) = -1` passes the `k == 0` check and the Python
slice `[:-1]` silently drops the lowest-ranked item, returning one result. -/
theorem negative_k_returns_result :
    (similarity_search ⟨1, ∅, [⟨1, [1, 0]⟩, ⟨2, [0, 1]⟩], some [[1, 0], [0, 1]], none⟩
        ⟨fun _ _ => .ok [1, 0]⟩ "q" (-1) ⟨.document, 0⟩)
      = (.ok ([⟨1, [1, 0]⟩], [EF.fin 1]), ⟨.document, 1⟩) := by
  with_unfolding_all decide

/-- Claim C8 counterexample: one `partitioned_similarity_search` call over two
partitions invokes the embedder once per partition — the call counter ends at
2, not 1. -/
theorem partitioned_search_embeds_once_per_partition :
    (partitioned_similarity_search
        ⟨1, ∅, [⟨0, [1, 0]⟩, ⟨1, [0, 1]⟩], some [[1, 0], [0, 1]], none⟩
        ⟨fun _ _ => .ok [1, 0]⟩ "q" 1 (fun t => if t.payload = 1 then 1 else 0)
        ⟨.document, 0⟩).2.2.calls = 2 ∧ (2 : ℕ) ≠ 1 := by
  with_unfolding_all decide

/-- Claim C9 counterexample: a diversified search CAN raise because of NaN.
With a zero-norm query embedding every similarity score is NaN, canonicalized
to `-inf` by `similarity_search`; in the MMR loop `0.5 * (-inf) - ... = -inf`
for every candidate, `np.argmax` of an all-`-inf` array returns index 0, which
is already selected, and `remaining_indices.remove(0)` raises `ValueError`. -/
theorem mmr_crashes_on_degenerate_query :
    (max_marginal_relevance_search
        ⟨1 / 2, ∅, [⟨1, [3, 4]⟩, ⟨2, [1, 0]⟩, ⟨3, [0, 1]⟩],
         some [[3, 4], [1, 0], [0, 1]], none⟩
        ⟨fun _ _ => .ok [0, 0]⟩ "q" 2 3 none ⟨.document, 0⟩).1
      = .error .value := by
  with_unfolding_all decide

/-- Claim C10: `add_texts_and_embeddings` appends every batch item to the
stored texts even when its hash is already present (first conjunct: the stored
sequence is always the old sequence plus the whole batch, with no membership
test); after adding the same item twice the hash-set cardinality (`len(store)`)
is strictly below the number of stored rows (second conjunct); and the
duplicate occupies two slots of a `similarity_search` result (third conjunct:
a store built by adding the same text twice returns that text in both of the
top-2 slots). -/
theorem duplicates_appended_and_double_counted :
    (∀ (h : Embeddable → ℤ) (st : NumpyVectorStore) (batch : List Embeddable),
        (add_texts_and_embeddings h st batch).texts = st.texts ++ batch) ∧
    (∀ (h : Embeddable → ℤ) (st : NumpyVectorStore) (t : Embeddable),
        st.texts_hashes.card ≤ st.texts.length →
        storeLen (add_texts_and_embeddings h (add_texts_and_embeddings h st [t]) [t])
          < (add_texts_and_embeddings h (add_texts_and_embeddings h st [t]) [t]).texts.length) ∧
    (similarity_search
        (add_texts_and_embeddings (fun t => (t.payload : ℤ))
          (add_texts_and_embeddings (fun t => (t.payload : ℤ))
            ⟨1, ∅, [], none, none⟩ [⟨1, [1, 0]⟩])
          [⟨1, [1, 0]⟩])
        ⟨fun _ _ => .ok [1, 0]⟩ "q" 2 ⟨.document, 0⟩).1
      = .ok ([⟨1, [1, 0]⟩, ⟨1, [1, 0]⟩], [EF.fin 1, EF.fin 1]) := by
  refine ⟨fun h st batch => rfl, fun h st t hle => ?_, by with_unfolding_all decide⟩
  have hsub : (st.texts_hashes ∪ ([t].map h).toFinset ∪ ([t].map h).toFinset).card
      ≤ st.texts_hashes.card + 1 := by
    have h1 : (st.texts_hashes ∪ ([t].map h).toFinset ∪ ([t].map h).toFinset)
        = st.texts_hashes ∪ {h t} := by
      simp [Finset.union_assoc]
    rw [h1]
    calc (st.texts_hashes ∪ {h t}).card
        ≤ st.texts_hashes.card + ({h t} : Finset ℤ).card := Finset.card_union_le _ _
      _ = st.texts_hashes.card + 1 := by simp
  have hlen : (add_texts_and_embeddings h (add_texts_and_embeddings h st [t]) [t]).texts.length
      = st.texts.length + 2 := by
    simp [add_texts_and_embeddings]
  have hcard : storeLen (add_texts_and_embeddings h (add_texts_and_embeddings h st [t]) [t])
      ≤ st.texts_hashes.card + 1 := hsub
  omega

/-- Witness for `duplicates_appended_and_double_counted`: its hypothesis-bearing
conjunct applied to the empty store. -/
theorem duplicates_appended_and_double_counted_witness :
    (∅ : Finset ℤ).card ≤ ([] : List Embeddable).length ∧
    storeLen (add_texts_and_embeddings (fun t => (t.payload : ℤ))
        (add_texts_and_embeddings (fun t => (t.payload : ℤ))
          ⟨1, ∅, [], none, none⟩ [⟨5, [1, 0]⟩]) [⟨5, [1, 0]⟩])
      < (add_texts_and_embeddings (fun t => (t.payload : ℤ))
          (add_texts_and_embeddings (fun t => (t.payload : ℤ))
            ⟨1, ∅, [], none, none⟩ [⟨5, [1, 0]⟩]) [⟨5, [1, 0]⟩]).texts.length :=
  ⟨by simp, duplicates_appended_and_double_counted.2.1 (fun t => (t.payload : ℤ))
      ⟨1, ∅, [], none, none⟩ ⟨5, [1, 0]⟩ (by simp)⟩

/-- Helper: an element looked up in a `nan_to_num` image is never NaN. -/
theorem getD_map_nanToNum_ne_nan (l : List EF) (j : ℕ) :
    (l.map EF.nanToNum).getD j (EF.fin 0) ≠ EF.nan := by
  by_cases hj : j < (l.map EF.nanToNum).length
  · rw [List.getD_eq_getElem _ _ hj]
    rw [List.getElem_map]
    have hj2 : j < l.length := by simpa using hj
    cases h : l[j] <;> simp [EF.nanToNum, h]
  · rw [List.getD_eq_default _ _ (by omega)]
    simp

/-- Claim C9 (amended, provable part): every score returned by a successful
`similarity_search` is NaN-free — the score array is passed through
`np.nan_to_num(nan=-np.inf)` before ranking, so degenerate (zero-norm) vectors
come out as `-inf`, never NaN.  (The MMR loop performs no such canonicalization;
see `mmr_crashes_on_degenerate_query`.) -/
theorem similarity_search_scores_never_nan (st : NumpyVectorStore)
    (e : EmbedderM) (q : String) (k : ℤ) (es : EmbSt) (ts : List Embeddable)
    (ss : List EF) (es' : EmbSt)
    (h : similarity_search st e q k es = (.ok (ts, ss), es')) :
    ∀ s ∈ ss, s ≠ EF.nan := by
  unfold similarity_search embed_documents at h
  dsimp only at h
  by_cases hk : k ⊓ (st.texts.length : ℤ) = 0
  · rw [if_pos hk] at h
    simp only [Prod.mk.injEq, Except.ok.injEq] at h
    obtain ⟨⟨-, rfl⟩, -⟩ := h
    intro s hs
    simp at hs
  · rw [if_neg hk] at h
    rcases hqv : e.embed EmbeddingModes.query q with u | qv <;> rw [hqv] at h
    · simp only [Prod.mk.injEq] at h
      exact absurd h.1 (by simp)
    · rcases hm : st.emb_matrix with - | m0 <;> rw [hm] at h
      · simp only [Prod.mk.injEq] at h
        exact absurd h.1 (by simp)
      · rcases hf : st.texts_filter with - | fl <;> rw [hf] at h <;> dsimp only at h
        · rcases hcs : cosine_similarity [qv] m0 with - | simRows <;> rw [hcs] at h
          · simp only [Prod.mk.injEq] at h
            exact absurd h.1 (by simp)
          · simp only [Prod.mk.injEq, Except.ok.injEq] at h
            obtain ⟨⟨-, rfl⟩, -⟩ := h
            intro s hs
            obtain ⟨j, -, rfl⟩ := List.mem_map.mp hs
            exact getD_map_nanToNum_ne_nan _ _
        · rcases hcs : cosine_similarity [qv] (maskRows fl m0) with - | simRows <;> rw [hcs] at h
          · simp only [Prod.mk.injEq] at h
            exact absurd h.1 (by simp)
          · simp only [Prod.mk.injEq, Except.ok.injEq] at h
            obtain ⟨⟨-, rfl⟩, -⟩ := h
            intro s hs
            obtain ⟨j, -, rfl⟩ := List.mem_map.mp hs
            exact getD_map_nanToNum_ne_nan _ _

/-- Witness for `similarity_search_scores_never_nan`: a corpus holding a
zero-norm vector; its score comes back as `-inf` (ranked last), not NaN. -/
theorem similarity_search_scores_never_nan_witness :
    (similarity_search ⟨1, ∅, [⟨1, [0, 0]⟩, ⟨2, [1, 0]⟩], some [[0, 0], [1, 0]], none⟩
        ⟨fun _ _ => .ok [1, 0]⟩ "q" 2 ⟨.document, 0⟩)
      = (.ok ([⟨2, [1, 0]⟩, ⟨1, [0, 0]⟩], [EF.fin 1, EF.ninf]), ⟨.document, 1⟩) ∧
    ∀ s ∈ [EF.fin 1, EF.ninf], s ≠ EF.nan := by
  have hrun : (similarity_search ⟨1, ∅, [⟨1, [0, 0]⟩, ⟨2, [1, 0]⟩], some [[0, 0], [1, 0]], none⟩
        ⟨fun _ _ => .ok [1, 0]⟩ "q" 2 ⟨.document, 0⟩)
      = (.ok ([⟨2, [1, 0]⟩, ⟨1, [0, 0]⟩], [EF.fin 1, EF.ninf]), ⟨.document, 1⟩) := by
    with_unfolding_all decide
  exact ⟨hrun, similarity_search_scores_never_nan _ _ _ _ _ _ _ _ hrun⟩

/-! Length preservation through the sort model: every mutation of the index
array is a `set` or a swap. -/

theorem swapT_length (ts : List ℕ) (i j : ℕ) : (swapT ts i j).length = ts.length := by
  simp [swapT]

theorem qsPartLoop_length (v : List EF) (vp : EF) :
    ∀ fuel ts pi pj, ((qsPartLoop v vp fuel ts pi pj).1).length = ts.length := by
  intro fuel
  induction fuel with
  | zero => intro ts pi pj; rfl
  | succ f ih =>
    intro ts pi pj
    unfold qsPartLoop
    dsimp only
    split
    · rfl
    · rw [ih, swapT_length]

theorem qsInsertInner_length (v : List EF) (pl vi : ℕ) :
    ∀ pj ts, (qsInsertInner v pl vi pj ts).length = ts.length := by
  intro pj
  induction pj with
  | zero => intro ts; simp [qsInsertInner]
  | succ pj ih =>
    intro ts
    unfold qsInsertInner
    split
    · rw [ih, List.length_set]
    · simp

theorem qsInsertLoop_length (v : List EF) (pl : ℕ) :
    ∀ c pi ts, (qsInsertLoop v pl c pi ts).length = ts.length := by
  intro c
  induction c with
  | zero => intro pi ts; rfl
  | succ c ih =>
    intro pi ts
    unfold qsInsertLoop
    rw [ih, qsInsertInner_length]

theorem haSift_length (v : List EF) (pl tmp nn : ℕ) :
    ∀ fuel i j ts, (haSift v pl tmp nn fuel i j ts).length = ts.length := by
  intro fuel
  induction fuel with
  | zero => intro i j ts; simp [haSift, haS]
  | succ f ih =>
    intro i j ts
    unfold haSift
    dsimp only
    repeat' split
    all_goals simp [ih, haS]

theorem haHeapify_length (v : List EF) (pl nn : ℕ) :
    ∀ l ts, (haHeapify v pl nn l ts).length = ts.length := by
  intro l
  induction l with
  | zero => intro ts; rfl
  | succ l ih =>
    intro ts
    unfold haHeapify
    rw [ih, haSift_length]

theorem haPop_length (v : List EF) (pl : ℕ) :
    ∀ n ts, (haPop v pl n ts).length = ts.length := by
  intro n
  induction n using Nat.strong_induction_on with
  | _ n ih =>
    match n with
    | 0 => intro ts; rfl
    | 1 => intro ts; rfl
    | n + 2 =>
      intro ts
      unfold haPop
      rw [ih (n + 1) (by omega), haSift_length]
      simp [haS]

theorem aheapsortSeg_length (v : List EF) (ts : List ℕ) (pl num : ℕ) :
    (aheapsortSeg v ts pl num).length = ts.length := by
  unfold aheapsortSeg
  rw [haPop_length, haHeapify_length]

theorem qsOuter_length (v : List EF) :
    ∀ fuel stack pl pr depth ts, (qsOuter v fuel stack pl pr depth ts).length = ts.length := by
  intro fuel
  induction fuel with
  | zero => intro stack pl pr depth ts; rfl
  | succ f ih =>
    intro stack pl pr depth ts
    unfold qsOuter
    dsimp only
    repeat' split
    all_goals
      simp only [ih, aheapsortSeg_length, qsInsertLoop_length, swapT_length,
        qsPartLoop_length, List.length_set]

theorem npArgsort_length (v : List EF) : (npArgsort v).length = v.length := by
  unfold npArgsort
  split
  · simp_all
  · rw [qsOuter_length, List.length_range]
    simp_all

/-! Small facts about `pyTake` and the query-row form of `cosine_similarity`. -/

theorem pyTake_length (k : ℤ) {α : Type} (l : List α) :
    (pyTake k l).length
      = if 0 ≤ k then min k.toNat l.length else min ((l.length : ℤ) + k).toNat l.length := by
  unfold pyTake
  split <;> simp

theorem pyTake_ofNat {α : Type} (k : ℕ) (l : List α) : pyTake (k : ℤ) l = l.take k := by
  unfold pyTake
  rw [if_pos (by omega)]
  simp

theorem broadcastMul_single (x : ℚ) (ys : List ℚ) :
    broadcastMul [x] ys = some (ys.map (fun b => x * b)) := by
  unfold broadcastMul
  match ys with
  | [] => simp
  | y :: ys' =>
    match ys' with
    | [] => simp
    | z :: ys'' => simp

theorem broadcastDivRow_same (r d : List ℚ) (h : d.length = r.length) :
    broadcastDivRow r d = some (List.zipWith efDiv r d) := by
  unfold broadcastDivRow
  rw [if_pos h]

/-- The only well-behaved use of `cosine_similarity` in the code: a single query
row against a matrix whose rows share the query's width.  The result is the
per-row `dot / (|q| * |row|)` vector. -/
theorem cosine_query_row (qv : List ℚ) (M : List (List ℚ))
    (hd : ∀ r ∈ M, r.length = qv.length) :
    cosine_similarity [qv] M
      = some [M.map (fun r => efDiv (dot qv r) (ratNorm qv * ratNorm r))] := by
  unfold cosine_similarity
  have hdims : dimsOk [qv] M = true := by
    unfold dimsOk
    simp only [List.singleton_append]
    rw [List.all_eq_true]
    intro r hr
    simp [hd r hr]
  rw [if_pos hdims]
  rw [show ([qv].map ratNorm) = [ratNorm qv] from rfl, broadcastMul_single]
  have hmm : matmulT [qv] M = [M.map (fun r => dot qv r)] := rfl
  rw [hmm]
  simp only [List.mapM_cons, List.mapM_nil]
  rw [broadcastDivRow_same _ _ (by simp)]
  have hz : List.zipWith efDiv (M.map (fun r => dot qv r))
        ((M.map ratNorm).map (fun b => ratNorm qv * b))
      = M.map (fun r => efDiv (dot qv r) (ratNorm qv * ratNorm r)) := by
    rw [List.map_map, List.zipWith_map, List.zipWith_same]
    rfl
  rw [hz]
  rfl

/-! Effect of one `similarity_search` call on the embedder state. -/

theorem similarity_search_k_zero (st : NumpyVectorStore) (e : EmbedderM)
    (q : String) (k : ℤ) (es : EmbSt) (h : k ⊓ (st.texts.length : ℤ) = 0) :
    similarity_search st e q k es = (.ok ([], []), es) := by
  unfold similarity_search
  dsimp only
  rw [if_pos h]

theorem similarity_search_embed_error (st : NumpyVectorStore) (e : EmbedderM)
    (q : String) (k : ℤ) (es : EmbSt) (u : Unit)
    (hk : ¬ k ⊓ (st.texts.length : ℤ) = 0) (he : e.embed .query q = .error u) :
    similarity_search st e q k es = (.error .embed, ⟨.query, es.calls + 1⟩) := by
  unfold similarity_search embed_documents
  dsimp only
  rw [if_neg hk, he]

theorem similarity_search_es (st : NumpyVectorStore) (e : EmbedderM)
    (q : String) (k : ℤ) (es : EmbSt) (qv : List ℚ)
    (hk : ¬ k ⊓ (st.texts.length : ℤ) = 0) (he : e.embed .query q = .ok qv) :
    (similarity_search st e q k es).2 = ⟨.document, es.calls + 1⟩ := by
  unfold similarity_search embed_documents
  dsimp only
  rw [if_neg hk, he]
  dsimp only
  repeat' split
  all_goals rfl

/-! The partitioned loop: filter reset on success, embedder effects. -/

theorem partitionedGo_ok_filter (st : NumpyVectorStore) (e : EmbedderM)
    (q : String) (k : ℤ) (kl : List ℤ) :
    ∀ (keys : List ℤ) accT accS es r st' es',
      partitionedGo st e q k kl keys accT accS es = (.ok r, st', es') →
      st'.texts_filter = none := by
  intro keys
  induction keys with
  | nil =>
    intro accT accS es r st' es' h
    unfold partitionedGo at h
    have h21 := congrArg (fun p => p.2.1.texts_filter) h
    simpa using h21.symm
  | cons p rest ih =>
    intro accT accS es r st' es' h
    unfold partitionedGo at h
    dsimp only at h
    rcases hss : similarity_search { st with texts_filter := some (kl.map (· == p)) } e q k es
      with ⟨r1, es1⟩
    rw [hss] at h
    rcases r1 with er | ⟨ts, ss⟩
    · exact absurd (congrArg (fun p => p.1) h) (by simp)
    · exact ih _ _ _ _ _ _ h

theorem partitionedGo_embst (st : NumpyVectorStore) (e : EmbedderM)
    (q : String) (k : ℤ) (kl : List ℤ) :
    ∀ (keys : List ℤ) accT accS es r st' es',
      partitionedGo st e q k kl keys accT accS es = (.ok r, st', es') →
      (k ⊓ (st.texts.length : ℤ) = 0 → es' = es) ∧
      (¬ k ⊓ (st.texts.length : ℤ) = 0 →
        es'.calls = es.calls + keys.length ∧
        (keys = [] → es' = es) ∧ (keys ≠ [] → es'.mode = .document)) := by
  intro keys
  induction keys with
  | nil =>
    intro accT accS es r st' es' h
    have h22 := congrArg (fun p => p.2.2) h
    dsimp only [partitionedGo] at h22
    refine ⟨fun _ => h22.symm ▸ rfl, fun _ => ⟨?_, fun _ => h22.symm ▸ rfl, fun hne => absurd rfl hne⟩⟩
    rw [← h22]
    simp
  | cons p rest ih =>
    intro accT accS es r st' es' h
    unfold partitionedGo at h
    dsimp only at h
    have htx : ({ st with texts_filter := some (kl.map (· == p)) } : NumpyVectorStore).texts
        = st.texts := rfl
    by_cases hk : k ⊓ (st.texts.length : ℤ) = 0
    · have hss := similarity_search_k_zero
        { st with texts_filter := some (kl.map (· == p)) } e q k es (by rw [htx]; exact hk)
      rw [hss] at h
      refine ⟨fun _ => (ih _ _ _ _ _ _ h).1 hk, fun hk' => absurd hk hk'⟩
    · rcases hqv : e.embed EmbeddingModes.query q with u | qv
      · have hss := similarity_search_embed_error
          { st with texts_filter := some (kl.map (· == p)) } e q k es u (by rw [htx]; exact hk) hqv
        rw [hss] at h
        exact absurd (congrArg (fun p => p.1) h) (by simp)
      · rcases hss : similarity_search { st with texts_filter := some (kl.map (· == p)) } e q k es
          with ⟨r1, es1⟩
        have hes1 : es1 = ⟨.document, es.calls + 1⟩ := by
          have := similarity_search_es { st with texts_filter := some (kl.map (· == p)) } e q k es
            qv (by rw [htx]; exact hk) hqv
          rw [hss] at this
          exact this
        rw [hss] at h
        rcases r1 with er | ⟨ts, ss⟩
        · exact absurd (congrArg (fun p => p.1) h) (by simp)
        · have hrec := (ih _ _ _ _ _ _ h).2 hk
          refine ⟨fun hk0 => absurd hk0 hk, fun _ => ⟨?_, fun hne => absurd hne (by simp), fun _ => ?_⟩⟩
          · rw [hrec.1, hes1]
            simp [List.length_cons]
            omega
          · rcases rest with - | ⟨p2, rest2⟩
            · rw [hrec.2.1 rfl, hes1]
            · exact hrec.2.2 (by simp)

/-- Claim C6 (amended): on every successful return of
`partitioned_similarity_search` the store's `_texts_filter` is `None` again.
(On an error it can remain installed: `partition_filter_left_installed_on_error`.) -/
theorem partition_filter_cleared_on_success (st : NumpyVectorStore)
    (e : EmbedderM) (q : String) (k : ℤ) (f : Embeddable → ℤ) (es : EmbSt)
    (r : List Embeddable × List EF) (st' : NumpyVectorStore) (es' : EmbSt)
    (h : partitioned_similarity_search st e q k f es = (.ok r, st', es')) :
    st'.texts_filter = none := by
  unfold partitioned_similarity_search at h
  exact partitionedGo_ok_filter _ _ _ _ _ _ _ _ _ _ _ _ h

/-- Witness for `partition_filter_cleared_on_success`: a successful one-partition
search; the returned store carries no filter. -/
theorem partition_filter_cleared_on_success_witness :
    partitioned_similarity_search ⟨1, ∅, [⟨1, [1, 0]⟩], some [[1, 0]], none⟩
        ⟨fun _ _ => .ok [1, 0]⟩ "q" 1 (fun _ => 0) ⟨.document, 0⟩
      = (.ok ([⟨1, [1, 0]⟩], [EF.fin 1]),
         ⟨1, ∅, [⟨1, [1, 0]⟩], some [[1, 0]], none⟩, ⟨.document, 1⟩) ∧
    (⟨1, ∅, [⟨1, [1, 0]⟩], some [[1, 0]], none⟩ : NumpyVectorStore).texts_filter = none := by
  have hrun : partitioned_similarity_search ⟨1, ∅, [⟨1, [1, 0]⟩], some [[1, 0]], none⟩
      ⟨fun _ _ => .ok [1, 0]⟩ "q" 1 (fun _ => 0) ⟨.document, 0⟩
      = (.ok ([⟨1, [1, 0]⟩], [EF.fin 1]),
         ⟨1, ∅, [⟨1, [1, 0]⟩], some [[1, 0]], none⟩, ⟨.document, 1⟩) := by
    with_unfolding_all decide
  exact ⟨hrun, partition_filter_cleared_on_success _ _ _ _ _ _ _ _ _ hrun⟩

/-- Claim C8 (amended): the embedder is invoked exactly once per plain
similarity search that embeds at all — a plain call with `min(k, corpus) = 0`
returns before embedding and leaves the embedder untouched (first conjunct); a
plain call that proceeds bumps the call counter exactly once and leaves the
embedder in DOCUMENT mode, each embed happening in QUERY mode (second
conjunct); a successful partitioned call embeds the query once per distinct
partition key, not once, and leaves DOCUMENT mode when at least one partition
exists (third conjunct). -/
theorem embedder_mode_and_call_discipline :
    (∀ (st : NumpyVectorStore) (e : EmbedderM) (q : String) (k : ℤ) (es : EmbSt),
        k ⊓ (st.texts.length : ℤ) = 0 →
        similarity_search st e q k es = (.ok ([], []), es)) ∧
    (∀ (st : NumpyVectorStore) (e : EmbedderM) (q : String) (k : ℤ) (es : EmbSt)
        (qv : List ℚ), ¬ k ⊓ (st.texts.length : ℤ) = 0 →
        e.embed .query q = .ok qv →
        (similarity_search st e q k es).2 = ⟨.document, es.calls + 1⟩) ∧
    (∀ (st : NumpyVectorStore) (e : EmbedderM) (q : String) (k : ℤ)
        (f : Embeddable → ℤ) (es : EmbSt) (r : List Embeddable × List EF)
        (st' : NumpyVectorStore) (es' : EmbSt),
        partitioned_similarity_search st e q k f es = (.ok r, st', es') →
        ¬ k ⊓ (st.texts.length : ℤ) = 0 →
        es'.calls = es.calls + (uniqueSorted (st.texts.map f)).length ∧
        (uniqueSorted (st.texts.map f) ≠ [] → es'.mode = .document)) := by
  refine ⟨similarity_search_k_zero, similarity_search_es, ?_⟩
  intro st e q k f es r st' es' h hk
  unfold partitioned_similarity_search at h
  have := (partitionedGo_embst st e q k (st.texts.map f) _ _ _ _ _ _ _ h).2 hk
  exact ⟨this.1, this.2.2⟩

/-- Witness for `embedder_mode_and_call_discipline`: its three conjuncts at
concrete stores — the zero-k early return, a plain two-text search, and the
two-partition search of `partitioned_search_embeds_once_per_partition`. -/
theorem embedder_mode_and_call_discipline_witness :
    similarity_search ⟨1, ∅, [⟨1, [1, 0]⟩], some [[1, 0]], none⟩
        ⟨fun _ _ => .ok [1, 0]⟩ "q" 0 ⟨.document, 5⟩ = (.ok ([], []), ⟨.document, 5⟩) ∧
    (similarity_search ⟨1, ∅, [⟨1, [1, 0]⟩, ⟨2, [0, 1]⟩], some [[1, 0], [0, 1]], none⟩
        ⟨fun _ _ => .ok [1, 0]⟩ "q" 2 ⟨.document, 0⟩).2 = ⟨.document, 1⟩ ∧
    (⟨.document, 2⟩ : EmbSt).calls
        = (⟨.document, 0⟩ : EmbSt).calls
          + (uniqueSorted ([⟨0, [1, 0]⟩, ⟨1, [0, 1]⟩].map
              (fun t : Embeddable => if t.payload = 1 then (1 : ℤ) else 0))).length := by
  refine ⟨embedder_mode_and_call_discipline.1 _ _ _ _ _ (by decide),
    embedder_mode_and_call_discipline.2.1 _ _ _ _ _ [1, 0] (by decide) rfl, ?_⟩
  have h := (embedder_mode_and_call_discipline.2.2
    ⟨1, ∅, [⟨0, [1, 0]⟩, ⟨1, [0, 1]⟩], some [[1, 0], [0, 1]], none⟩
    ⟨fun _ _ => .ok [1, 0]⟩ "q" 1 (fun t => if t.payload = 1 then (1 : ℤ) else 0)
    ⟨.document, 0⟩
    ([⟨0, [1, 0]⟩], [EF.fin 1])
    ⟨1, ∅, [⟨0, [1, 0]⟩, ⟨1, [0, 1]⟩], some [[1, 0], [0, 1]], none⟩
    ⟨.document, 2⟩ (by with_unfolding_all decide) (by decide)).1
  exact h

/-- Claim C7 (amended): `similarity_search` does not validate `k < 0`.  Since
`min(k, corpus) = k` passes the `k == 0` early-return, the call embeds,
ranks, and the Python slice `[:k]` drops the last `|k|` ranked items: the call
returns normally with `max(0, corpus + k)` results instead of failing. -/
theorem negative_k_drops_tail (st : NumpyVectorStore) (e : EmbedderM)
    (q : String) (k : ℤ) (es : EmbSt) (qv : List ℚ)
    (hk : k < 0)
    (hm : st.emb_matrix = some (st.texts.map (·.embedding)))
    (hf : st.texts_filter = none)
    (he : e.embed .query q = .ok qv)
    (hd : ∀ t ∈ st.texts, t.embedding.length = qv.length) :
    ∃ ts ss, similarity_search st e q k es = (.ok (ts, ss), ⟨.document, es.calls + 1⟩) ∧
      ts.length = ((st.texts.length : ℤ) + k).toNat ∧
      ss.length = ((st.texts.length : ℤ) + k).toNat := by
  have hmin : k ⊓ (st.texts.length : ℤ) = k := by omega
  unfold similarity_search embed_documents
  dsimp only
  rw [hmin, if_neg (by omega : ¬ k = 0), he]
  dsimp only
  rw [hm, hf]
  dsimp only
  rw [cosine_query_row qv _ (fun r hr => by
    obtain ⟨t, ht, rfl⟩ := List.mem_map.mp hr
    exact hd t ht)]
  dsimp only
  refine ⟨_, _, rfl, ?_, ?_⟩
  · simp only [List.length_map, pyTake_length, if_neg (by omega : ¬ (0 : ℤ) ≤ k),
      npArgsort_length, List.getD_cons_zero]
    omega
  · simp only [List.length_map, pyTake_length, if_neg (by omega : ¬ (0 : ℤ) ≤ k),
      npArgsort_length, List.getD_cons_zero]
    omega

/-- Witness for `negative_k_drops_tail`: the two-text store of
`negative_k_returns_result` with `k = -1`; one result comes back. -/
theorem negative_k_drops_tail_witness :
    ∃ ts ss, similarity_search
        ⟨1, ∅, [⟨1, [1, 0]⟩, ⟨2, [0, 1]⟩], some [[1, 0], [0, 1]], none⟩
        ⟨fun _ _ => .ok [1, 0]⟩ "q" (-1) ⟨.document, 0⟩
      = (.ok (ts, ss), ⟨.document, 1⟩) ∧
      ts.length = (((2 : ℕ) : ℤ) + (-1)).toNat ∧
      ss.length = (((2 : ℕ) : ℤ) + (-1)).toNat :=
  negative_k_drops_tail ⟨1, ∅, [⟨1, [1, 0]⟩, ⟨2, [0, 1]⟩], some [[1, 0], [0, 1]], none⟩
    ⟨fun _ _ => .ok [1, 0]⟩ "q" (-1) ⟨.document, 0⟩ [1, 0] (by decide) rfl rfl rfl
    (by intro t ht; fin_cases ht <;> rfl)

/-! Order facts about non-NaN extended floats, the characterization of numpy's
argmax on NaN-free arrays, and `find?` over an index range — the ingredients of
the MMR greedy-selection equivalence (claim C4). -/

theorem EF.isFin_iff (x : EF) : x.isFin = true ↔ ∃ q, x = EF.fin q := by
  cases x <;> simp [EF.isFin]

theorem EF.not_nan_of_fin {x : EF} (h : x.isFin = true) : x.isNan = false := by
  cases x <;> simp_all [EF.isFin, EF.isNan]

theorem EF.le_refl' {x : EF} (h : x.isNan = false) : EF.le x x = true := by
  cases x <;> simp_all [EF.le, EF.isNan]

theorem EF.not_le_iff_lt {x y : EF} (hx : x.isNan = false) (hy : y.isNan = false) :
    EF.le x y = false ↔ EF.lt y x = true := by
  cases x <;> cases y <;> simp_all [EF.le, EF.lt, EF.isNan, not_le]

theorem EF.le_trans' {x y z : EF} (h1 : EF.le x y = true) (h2 : EF.le y z = true) :
    EF.le x z = true := by
  cases x <;> cases y <;> cases z <;> simp_all [EF.le]
  linarith

theorem EF.lt_of_le_of_lt' {x y z : EF} (h1 : EF.le x y = true) (h2 : EF.lt y z = true) :
    EF.lt x z = true := by
  cases x <;> cases y <;> cases z <;> simp_all [EF.le, EF.lt]
  linarith

theorem EF.le_of_lt' {x y : EF} (h : EF.lt x y = true) : EF.le x y = true := by
  cases x <;> cases y <;> simp_all [EF.le, EF.lt]
  linarith

theorem EF.not_le_of_lt {x y : EF} (h : EF.lt x y = true) : EF.le y x = false := by
  cases x <;> cases y <;> simp_all [EF.le, EF.lt]

theorem EF.fin_le_ninf (q : ℚ) : EF.le (EF.fin q) EF.ninf = false := rfl

theorem npMaxL_fin (l : List EF) (hne : l ≠ []) (h : ∀ x ∈ l, x.isFin = true) :
    (npMaxL l).isFin = true := by
  match l with
  | x :: xs =>
    unfold npMaxL
    have haux : ∀ (ys : List EF) (acc : EF), acc.isFin = true → (∀ y ∈ ys, y.isFin = true) →
        (ys.foldl (fun a b => if a.isNan || b.isNan then EF.nan
          else if EF.le a b then b else a) acc).isFin = true := by
      intro ys
      induction ys with
      | nil => intro acc ha _; exact ha
      | cons y ys ih =>
        intro acc ha hy
        simp only [List.foldl_cons]
        have hy1 := hy y (by simp)
        have : (if acc.isNan || y.isNan then EF.nan else if EF.le acc y then y else acc).isFin
            = true := by
          obtain ⟨qa, rfl⟩ := (EF.isFin_iff acc).mp ha
          obtain ⟨qy, rfl⟩ := (EF.isFin_iff y).mp hy1
          simp only [EF.isNan, Bool.or_self, Bool.false_eq_true, if_false]
          split <;> rfl
        exact ih _ this (fun z hz => hy z (by simp [hz]))
    exact haux xs x (h x (by simp)) (fun z hz => h z (by simp [hz]))

/-- Lookup in `(range n).map f` below the length is just `f`. -/
theorem getD_range_map {β : Type} (n : ℕ) (f : ℕ → β) (j : ℕ) (d : β)
    (hj : j < n) : ((List.range n).map f).getD j d = f j := by
  rw [List.getD_eq_getElem _ _ (by simpa using hj)]
  simp

/-- The accumulator loop of numpy's argmax, characterized on NaN-free input:
starting from a prefix whose maximum (first occurrence) is the accumulator, it
returns the index of the first maximum of the whole array. -/
theorem argmaxGo_spec (l : List EF) (hnn : ∀ x ∈ l, x.isNan = false) :
    ∀ cnt i m, i + cnt = l.length → m < i →
      (∀ j, j < i → EF.le (l.getD j EF.nan) (l.getD m EF.nan) = true) →
      (∀ j, j < m → EF.lt (l.getD j EF.nan) (l.getD m EF.nan) = true) →
      argmaxGo (l.drop i) (l.getD m EF.nan) m i < l.length ∧
      (∀ j, j < l.length →
        EF.le (l.getD j EF.nan)
          (l.getD (argmaxGo (l.drop i) (l.getD m EF.nan) m i) EF.nan) = true) ∧
      (∀ j, j < argmaxGo (l.drop i) (l.getD m EF.nan) m i →
        EF.lt (l.getD j EF.nan)
          (l.getD (argmaxGo (l.drop i) (l.getD m EF.nan) m i) EF.nan) = true) := by
  intro cnt
  induction cnt with
  | zero =>
    intro i m hi hmi hle hlt
    have hi' : i = l.length := by omega
    subst hi'
    rw [List.drop_length]
    simp only [argmaxGo]
    exact ⟨by omega, fun j hj => hle j hj, hlt⟩
  | succ cnt ih =>
    intro i m hi hmi hle hlt
    have hilen : i < l.length := by omega
    rw [List.drop_eq_getElem_cons hilen]
    have hgi : l.getD i EF.nan = l[i] := List.getD_eq_getElem _ _ hilen
    have hginan : l[i].isNan = false := hnn _ (List.getElem_mem hilen)
    have hmlen : m < l.length := by omega
    have hmnan : (l.getD m EF.nan).isNan = false := by
      rw [List.getD_eq_getElem _ _ hmlen]
      exact hnn _ (List.getElem_mem hmlen)
    unfold argmaxGo
    by_cases hcmp : EF.le l[i] (l.getD m EF.nan) = true
    · rw [hcmp]
      simp only [Bool.not_true, Bool.false_eq_true, if_false]
      exact ih (i + 1) m (by omega) (by omega)
        (fun j hj => by
          rcases Nat.lt_or_ge j i with hji | hji
          · exact hle j hji
          · have : j = i := by omega
            subst this
            rw [hgi]
            exact hcmp)
        hlt
    · have hcmp' : EF.le l[i] (l.getD m EF.nan) = false := by
        cases h : EF.le l[i] (l.getD m EF.nan)
        · rfl
        · exact absurd h hcmp
      have hltmi : EF.lt (l.getD m EF.nan) l[i] = true :=
        (EF.not_le_iff_lt hginan hmnan).mp hcmp'
      rw [hcmp']
      simp only [Bool.not_false, if_true, hginan, Bool.false_eq_true, if_false]
      have hstep := ih (i + 1) i (by omega) (by omega)
        (fun j hj => by
          rcases Nat.lt_or_ge j i with hji | hji
          · rw [hgi]
            exact EF.le_trans' (hle j hji) (EF.le_of_lt' hltmi)
          · have : j = i := by omega
            subst this
            rw [hgi]
            exact EF.le_refl' hginan)
        (fun j hj => by
          rw [hgi]
          exact EF.lt_of_le_of_lt' (hle j hj) hltmi)
      rw [hgi] at hstep
      exact hstep

/-- Numpy's argmax on a nonempty NaN-free array: the first index of the
maximum. -/
theorem npArgmax_spec (l : List EF) (hne : l ≠ []) (hnn : ∀ x ∈ l, x.isNan = false) :
    npArgmax l < l.length ∧
    (∀ j, j < l.length → EF.le (l.getD j EF.nan) (l.getD (npArgmax l) EF.nan) = true) ∧
    (∀ j, j < npArgmax l → EF.lt (l.getD j EF.nan) (l.getD (npArgmax l) EF.nan) = true) := by
  match l with
  | x :: rest =>
    have hx : x.isNan = false := hnn x (by simp)
    simp only [npArgmax]
    rw [hx]
    simp only [Bool.false_eq_true, if_false]
    have h0 : ((x :: rest).getD 0 EF.nan) = x := rfl
    have hdrop : (x :: rest).drop 1 = rest := rfl
    have := argmaxGo_spec (x :: rest) hnn rest.length 1 0 (by simp; omega) (by omega)
      (fun j hj => by
        have : j = 0 := by omega
        subst this
        rw [h0]
        exact EF.le_refl' hx)
      (fun j hj => by omega)
    rw [hdrop, h0] at this
    exact this

/-- `find?` over `range' s c`: the earliest index satisfying the test. -/
theorem find?_range'_eq_some (p : ℕ → Bool) :
    ∀ (c s m : ℕ), (List.range' s c).find? p = some m ↔
      (s ≤ m ∧ m < s + c ∧ p m = true ∧ ∀ j, s ≤ j → j < m → p j = false) := by
  intro c
  induction c with
  | zero =>
    intro s m
    constructor
    · intro h
      simp [List.find?] at h
    · rintro ⟨h1, h2, -, -⟩
      omega
  | succ c ih =>
    intro s m
    rw [List.range'_succ, List.find?_cons]
    cases hp : p s with
    | true =>
      simp only
      constructor
      · intro h
        cases h
        exact ⟨le_refl s, by omega, hp, fun j h1 h2 => by omega⟩
      · rintro ⟨h1, h2, h3, h4⟩
        by_cases hms : m = s
        · subst hms; rfl
        · have := h4 s (le_refl s) (by omega)
          rw [hp] at this
          exact absurd this (by simp)
    | false =>
      simp only
      rw [ih (s + 1) m]
      constructor
      · rintro ⟨h1, h2, h3, h4⟩
        refine ⟨by omega, by omega, h3, fun j hj1 hj2 => ?_⟩
        by_cases hjs : j = s
        · subst hjs; exact hp
        · exact h4 j (by omega) hj2
      · rintro ⟨h1, h2, h3, h4⟩
        have hms : s < m := by
          by_cases hms : m = s
          · subst hms; rw [hp] at h3; exact absurd h3 (by simp)
          · omega
        exact ⟨by omega, by omega, h3, fun j hj1 hj2 => h4 j (by omega) hj2⟩

theorem find?_range_eq_some (p : ℕ → Bool) (n m : ℕ) :
    (List.range n).find? p = some m ↔
      (m < n ∧ p m = true ∧ ∀ j, j < m → p j = false) := by
  rw [List.range_eq_range', find?_range'_eq_some]
  constructor
  · rintro ⟨-, h2, h3, h4⟩
    exact ⟨by omega, h3, fun j hj => h4 j (by omega) hj⟩
  · rintro ⟨h1, h2, h3⟩
    exact ⟨by omega, by omega, h2, fun j _ hj => h3 j hj⟩

/-- A nodup list of naturals below `n`, shorter than `n`, misses some index. -/
theorem exists_lt_not_mem (sel : List ℕ) (n : ℕ) (hnd : sel.Nodup)
    (hlt : ∀ x ∈ sel, x < n) (hlen : sel.length < n) : ∃ i, i < n ∧ i ∉ sel := by
  by_contra hcon
  push_neg at hcon
  have hsub : Finset.range n ⊆ sel.toFinset := by
    intro i hi
    rw [Finset.mem_range] at hi
    rw [List.mem_toFinset]
    exact hcon i hi
  have := Finset.card_le_card hsub
  rw [Finset.card_range, List.toFinset_card_of_nodup hnd] at this
  omega

theorem mmrScoreAt_fin (lam : ℚ) (scores : List EF) (simM : List (List EF))
    (hS : ∀ i, i < scores.length → (scores.getD i (EF.fin 0)).isFin = true)
    (hM : ∀ i, i < scores.length → ∀ j, j < scores.length →
        ((simM.getD i []).getD j (EF.fin 0)).isFin = true)
    (sel : List ℕ) (hne : sel ≠ []) (hlt : ∀ x ∈ sel, x < scores.length)
    (i : ℕ) (hi : i < scores.length) :
    (mmrScoreAt lam scores simM sel i).isFin = true := by
  unfold mmrScoreAt
  have hmax : (npMaxL (sel.map (fun j => (simM.getD i []).getD j (EF.fin 0)))).isFin = true := by
    apply npMaxL_fin
    · simp [hne]
    · intro x hx
      obtain ⟨j, hj, rfl⟩ := List.mem_map.mp hx
      exact hM i hi j (hlt j hj)
  obtain ⟨qs, hqs⟩ := (EF.isFin_iff _).mp (hS i hi)
  obtain ⟨qm, hqm⟩ := (EF.isFin_iff _).mp hmax
  rw [hqs, hqm]
  rfl

/-- One iteration of the MMR loop agrees with spec §4.4's greedy pick: on
finite scores, masking the selected entries to `-inf` and taking the global
first argmax lands exactly on the earliest not-yet-selected maximizer. -/
theorem mmr_step (lam : ℚ) (scores : List EF) (simM : List (List EF))
    (hS : ∀ i, i < scores.length → (scores.getD i (EF.fin 0)).isFin = true)
    (hM : ∀ i, i < scores.length → ∀ j, j < scores.length →
        ((simM.getD i []).getD j (EF.fin 0)).isFin = true)
    (sel : List ℕ) (hne : sel ≠ []) (hnd : sel.Nodup)
    (hlt : ∀ x ∈ sel, x < scores.length)
    (hex : ∃ i, i < scores.length ∧ i ∉ sel) :
    npArgmax ((List.range scores.length).map
        (fun i => if i ∈ sel then EF.ninf else mmrScoreAt lam scores simM sel i))
      < scores.length ∧
    npArgmax ((List.range scores.length).map
        (fun i => if i ∈ sel then EF.ninf else mmrScoreAt lam scores simM sel i)) ∉ sel ∧
    specPickMMR lam scores simM sel
      = some (npArgmax ((List.range scores.length).map
          (fun i => if i ∈ sel then EF.ninf else mmrScoreAt lam scores simM sel i))) := by
  obtain ⟨i0, hi0n, hi0s⟩ := hex
  have hlenm : ((List.range scores.length).map
      (fun i => if i ∈ sel then EF.ninf else mmrScoreAt lam scores simM sel i)).length
      = scores.length := by simp
  have hmne : ((List.range scores.length).map
      (fun i => if i ∈ sel then EF.ninf else mmrScoreAt lam scores simM sel i)) ≠ [] := by
    intro hc
    rw [hc] at hlenm
    simp at hlenm
    omega
  have hgetD : ∀ j, j < scores.length →
      ((List.range scores.length).map
        (fun i => if i ∈ sel then EF.ninf else mmrScoreAt lam scores simM sel i)).getD j EF.nan
      = if j ∈ sel then EF.ninf else mmrScoreAt lam scores simM sel j :=
    fun j hj => getD_range_map _ _ j _ hj
  have hnn : ∀ x ∈ ((List.range scores.length).map
      (fun i => if i ∈ sel then EF.ninf else mmrScoreAt lam scores simM sel i)),
      x.isNan = false := by
    intro x hx
    obtain ⟨i, hi, rfl⟩ := List.mem_map.mp hx
    rw [List.mem_range] at hi
    by_cases his : i ∈ sel
    · simp [his, EF.isNan]
    · simp only [his, if_false]
      exact EF.not_nan_of_fin (mmrScoreAt_fin lam scores simM hS hM sel hne hlt i hi)
  obtain ⟨ham, hmax, hstrict⟩ := npArgmax_spec _ hmne hnn
  rw [hlenm] at ham
  have hms : npArgmax ((List.range scores.length).map
      (fun i => if i ∈ sel then EF.ninf else mmrScoreAt lam scores simM sel i)) ∉ sel := by
    intro hmem
    have h1 := hmax i0 (by rw [hlenm]; exact hi0n)
    rw [hgetD i0 hi0n, hgetD _ ham, if_neg hi0s, if_pos hmem] at h1
    obtain ⟨q0, hq0⟩ :=
      (EF.isFin_iff _).mp (mmrScoreAt_fin lam scores simM hS hM sel hne hlt i0 hi0n)
    rw [hq0, EF.fin_le_ninf] at h1
    exact absurd h1 (by simp)
  refine ⟨ham, hms, ?_⟩
  unfold specPickMMR
  rw [find?_range_eq_some]
  refine ⟨ham, ?_, ?_⟩
  · simp only [Bool.and_eq_true, decide_eq_true_eq, List.all_eq_true]
    refine ⟨hms, fun j hj => ?_⟩
    rw [List.mem_range] at hj
    by_cases hjs : j ∈ sel
    · simp [hjs]
    · have h1 := hmax j (by rw [hlenm]; exact hj)
      rw [hgetD j hj, hgetD _ ham, if_neg hjs, if_neg hms] at h1
      simp [hjs, h1]
  · intro j hjm
    have hjn : j < scores.length := by omega
    by_cases hjs : j ∈ sel
    · simp [hjs]
    · have hfail : EF.le
          (mmrScoreAt lam scores simM sel
            (npArgmax ((List.range scores.length).map
              (fun i => if i ∈ sel then EF.ninf else mmrScoreAt lam scores simM sel i))))
          (mmrScoreAt lam scores simM sel j) = false := by
        have h2 := hstrict j hjm
        rw [hgetD j hjn, hgetD _ ham, if_neg hjs, if_neg hms] at h2
        exact EF.not_le_of_lt h2
      cases hall : ((List.range scores.length).all fun j' =>
          decide (j' ∈ sel) || EF.le (mmrScoreAt lam scores simM sel j')
            (mmrScoreAt lam scores simM sel j)) with
      | false => simp [hall, hjs]
      | true =>
        exfalso
        rw [List.all_eq_true] at hall
        have h3 := hall _ (by rw [List.mem_range]; exact ham)
        rw [decide_eq_false hms, Bool.false_or, hfail] at h3
        exact absurd h3 (by simp)

/-- The MMR loop agrees, step by step, with spec §4.4's greedy loop on finite
scores, maintaining as invariants that the selected list is duplicate-free and
in range and that `remaining_indices` is exactly the not-yet-selected range. -/
theorem mmrLoop_spec (lam : ℚ) (k : ℤ) (scores : List EF) (simM : List (List EF))
    (hS : ∀ i, i < scores.length → (scores.getD i (EF.fin 0)).isFin = true)
    (hM : ∀ i, i < scores.length → ∀ j, j < scores.length →
        ((simM.getD i []).getD j (EF.fin 0)).isFin = true)
    (hkn : k ≤ (scores.length : ℤ)) :
    ∀ (fuel : ℕ) (sel rem : List ℕ), sel ≠ [] → sel.Nodup →
      (∀ x ∈ sel, x < scores.length) → rem.Nodup →
      (∀ x, x ∈ rem ↔ x < scores.length ∧ x ∉ sel) →
      k.toNat ≤ fuel + sel.length →
      ∃ out, mmrLoop lam k scores simM fuel sel rem = .ok out ∧
        specMMRLoop lam k scores simM fuel sel = some out := by
  intro fuel
  induction fuel with
  | zero =>
    intro sel rem hne hnd hlt hrnd hriff hfuel
    have hnl : ¬ (sel.length : ℤ) < k := by omega
    exact ⟨sel, by unfold mmrLoop; rw [if_neg hnl], by unfold specMMRLoop; rw [if_neg hnl]⟩
  | succ fuel ih =>
    intro sel rem hne hnd hlt hrnd hriff hfuel
    by_cases hlen : (sel.length : ℤ) < k
    · have hlenn : sel.length < scores.length := by omega
      obtain ⟨hmlt, hmns, hpick⟩ := mmr_step lam scores simM hS hM sel hne hnd hlt
        (exists_lt_not_mem sel _ hnd hlt hlenn)
      have hmrem : npArgmax ((List.range scores.length).map
          (fun i => if i ∈ sel then EF.ninf else mmrScoreAt lam scores simM sel i)) ∈ rem :=
        (hriff _).mpr ⟨hmlt, hmns⟩
      obtain ⟨out, hcode, hspec⟩ := ih
        (sel ++ [npArgmax ((List.range scores.length).map
          (fun i => if i ∈ sel then EF.ninf else mmrScoreAt lam scores simM sel i))])
        (rem.erase (npArgmax ((List.range scores.length).map
          (fun i => if i ∈ sel then EF.ninf else mmrScoreAt lam scores simM sel i))))
        (by simp) (by
          rw [List.nodup_append]
          exact ⟨hnd, List.nodup_singleton _, by
            intro x hx hxm
            rw [List.mem_singleton] at hxm
            subst hxm
            exact hmns hx⟩)
        (by
          intro x hx
          rw [List.mem_append, List.mem_singleton] at hx
          rcases hx with hx | rfl
          · exact hlt x hx
          · exact hmlt)
        (List.Nodup.erase _ hrnd)
        (by
          intro x
          rw [List.Nodup.mem_erase_iff hrnd, hriff x, List.mem_append, List.mem_singleton]
          constructor
          · rintro ⟨hxm, hxn, hxs⟩
            exact ⟨hxn, by tauto⟩
          · rintro ⟨hxn, hxs⟩
            refine ⟨by tauto, hxn, by tauto⟩)
        (by simp; omega)
      refine ⟨out, ?_, ?_⟩
      · unfold mmrLoop
        rw [if_pos hlen]
        dsimp only
        rw [if_pos hmrem]
        exact hcode
      · unfold specMMRLoop
        rw [if_pos hlen, hpick]
        exact hspec
    · exact ⟨sel, by unfold mmrLoop; rw [if_neg hlen], by unfold specMMRLoop; rw [if_neg hlen]⟩

/-- Claim C4 (amended): when the MMR path is taken and every relevance score
and pairwise-similarity entry is finite (no NaN or infinity from degenerate
zero-norm vectors), the MMR stage of `max_marginal_relevance_search` returns
exactly the spec's greedy selection — seeded with candidate 0, each step adding
the not-yet-selected candidate maximizing
`mmr_lambda * relevance - (1 - mmr_lambda) * max(similarity to selected)`,
ties broken by earliest original index, until k are selected — paired with the
original relevance scores in selection order. -/
theorem mmr_loop_implements_greedy_selection (lam : ℚ) (k : ℤ)
    (texts : List Embeddable) (scores : List EF) (simM : List (List EF))
    (hsim : cosine_similarity (texts.map (·.embedding)) (texts.map (·.embedding))
      = some simM)
    (hlen : scores.length = texts.length)
    (hk1 : 1 ≤ k) (hkn : k < (texts.length : ℤ)) (hlam : lam < 1)
    (hS : ∀ i, i < scores.length → (scores.getD i (EF.fin 0)).isFin = true)
    (hM : ∀ i, i < scores.length → ∀ j, j < scores.length →
        ((simM.getD i []).getD j (EF.fin 0)).isFin = true) :
    MMRMatchesGreedy lam k texts scores := by
  have hn2 : 2 ≤ texts.length := by omega
  obtain ⟨out, hcode, hspec⟩ := mmrLoop_spec lam k scores simM hS hM (by omega)
    k.toNat [0] (List.range' 1 (texts.length - 1))
    (by simp) (List.nodup_singleton 0) (by intro x hx; rw [List.mem_singleton] at hx; omega)
    (List.nodup_range' _ _)
    (by
      intro x
      rw [List.mem_range'_1, List.mem_singleton]
      omega)
    (by simp)
  refine ⟨out, ?_, ?_⟩
  · unfold specMMRSelectIdx
    rw [hsim]
    exact hspec
  · unfold mmrPhase
    rw [if_neg (by push_neg; exact ⟨by omega, by linarith⟩), hsim]
    simp only [hcode]

/-- Witness for `mmr_loop_implements_greedy_selection`: three finite candidates
(relevances 1, 1/2, 1/4; the third embedded identically to the first),
`mmr_lambda = 1/2`, `k = 2`: the greedy pick diversifies to the dissimilar
second candidate, and the code and the spec agree. -/
theorem mmr_loop_implements_greedy_selection_witness :
    MMRMatchesGreedy (1 / 2) 2 [⟨0, [1, 0]⟩, ⟨1, [0, 1]⟩, ⟨2, [1, 0]⟩]
        [EF.fin 1, EF.fin (1 / 2), EF.fin (1 / 4)] ∧
    specMMRSelectIdx (1 / 2) 2 [⟨0, [1, 0]⟩, ⟨1, [0, 1]⟩, ⟨2, [1, 0]⟩]
        [EF.fin 1, EF.fin (1 / 2), EF.fin (1 / 4)] = some [0, 1] ∧
    mmrPhase (1 / 2) 2 [⟨0, [1, 0]⟩, ⟨1, [0, 1]⟩, ⟨2, [1, 0]⟩]
        [EF.fin 1, EF.fin (1 / 2), EF.fin (1 / 4)]
      = .ok ([⟨0, [1, 0]⟩, ⟨1, [0, 1]⟩], [EF.fin 1, EF.fin (1 / 2)]) :=
  ⟨mmr_loop_implements_greedy_selection (1 / 2) 2 _ _
      [[EF.fin 1, EF.fin 0, EF.fin 1], [EF.fin 0, EF.fin 1, EF.fin 0],
       [EF.fin 1, EF.fin 0, EF.fin 1]]
      (by with_unfolding_all decide) (by decide) (by decide) (by decide)
      (by with_unfolding_all decide)
      (by with_unfolding_all decide) (by with_unfolding_all decide),
    by with_unfolding_all decide, by with_unfolding_all decide⟩

/-! Facts about the boolean-mask machinery of the partitioned search
(claim C5): masked rows, `np.where` indices, `np.unique` membership. -/

theorem maskRows_map {α : Type} (pred : Embeddable → Bool) (g : Embeddable → α)
    (l : List Embeddable) :
    maskRows (l.map pred) (l.map g) = (l.filter pred).map g := by
  unfold maskRows
  induction l with
  | nil => rfl
  | cons x xs ih =>
    simp only [List.map_cons, List.zip_cons_cons, List.filterMap_cons, List.filter_cons]
    by_cases h : pred x
    · simp only [h, if_true, List.map_cons]
      rw [ih]
    · simp only [h, Bool.false_eq_true, if_false]
      rw [ih]

theorem maskIdxFrom_shift (mask : List Bool) :
    ∀ s, maskIdxFrom mask s = (maskIdxFrom mask 0).map (fun a => a + s) := by
  induction mask with
  | nil => intro s; rfl
  | cons b bs ih =>
    intro s
    unfold maskIdxFrom
    by_cases hb : b = true
    · rw [hb]
      simp only [if_true]
      rw [ih (s + 1), ih 1, List.map_cons, List.map_map]
      refine congrArg₂ _ (by omega) ?_
      apply List.map_congr_left
      intro a _
      simp only [Function.comp_apply]
      omega
    · rw [Bool.not_eq_true] at hb
      rw [hb]
      simp only [Bool.false_eq_true, if_false]
      rw [ih (s + 1), ih 1, List.map_map]
      apply List.map_congr_left
      intro a _
      simp only [Function.comp_apply]
      omega

theorem getD_map_add_one (mi : List ℕ) (j n : ℕ) :
    (mi.map (fun a => a + 1)).getD j (n + 1) = (mi.getD j n) + 1 := by
  by_cases hj : j < mi.length
  · rw [List.getD_eq_getElem _ _ (by simpa using hj), List.getD_eq_getElem _ _ hj]
    simp
  · rw [List.getD_eq_default _ _ (by simpa using Nat.le_of_not_lt hj),
      List.getD_eq_default _ _ (Nat.le_of_not_lt hj)]

/-- Resolving a position through `np.where(mask)[0]` and then indexing the full
corpus is indexing the filtered corpus (out-of-range positions hit the default
on both sides). -/
theorem maskIdx_getD (l : List Embeddable) (pred : Embeddable → Bool) (j : ℕ) :
    l.getD ((maskIdx (l.map pred)).getD j l.length) dEmb
      = (l.filter pred).getD j dEmb := by
  induction l generalizing j with
  | nil =>
    simp [maskIdx, maskIdxFrom]
  | cons x xs ih =>
    simp only [List.map_cons, maskIdx, maskIdxFrom, List.filter_cons]
    by_cases hp : pred x
    · rw [if_pos hp, if_pos hp]
      match j with
      | 0 => rfl
      | j + 1 =>
        rw [List.getD_cons_succ, maskIdxFrom_shift, List.length_cons, getD_map_add_one,
          List.getD_cons_succ]
        exact ih j
    · rw [if_neg hp, if_neg hp]
      rw [maskIdxFrom_shift, List.length_cons, getD_map_add_one, List.getD_cons_succ]
      exact ih j

theorem mem_insUnique (a x : ℤ) (l : List ℤ) : a ∈ insUnique x l ↔ a = x ∨ a ∈ l := by
  induction l with
  | nil => simp [insUnique]
  | cons y ys ih =>
    unfold insUnique
    by_cases h1 : x < y
    · simp [h1]
    · by_cases h2 : x = y
      · subst h2
        simp [h1]
      · simp only [h1, h2, if_false]
        simp only [List.mem_cons, ih]
        tauto

theorem mem_uniqueSorted (a : ℤ) (l : List ℤ) : a ∈ uniqueSorted l ↔ a ∈ l := by
  induction l with
  | nil => simp [uniqueSorted]
  | cons x xs ih =>
    show a ∈ insUnique x (uniqueSorted xs) ↔ _
    rw [mem_insUnique, ih]
    simp

/-- A filtered search through an installed boolean mask behaves exactly like
spec §4.3's `similarityTopK` on the filtered sub-corpus.  This is the key
refinement step of claim C5: the `k = min(k, len(self.texts))` clamp uses the
FULL corpus length, but the slice clamps again at the sub-corpus size, so the
results coincide; and resolving `original_indices[sorted_indices]` through the
mask is indexing the filtered corpus directly. -/
theorem similarity_search_filtered (st : NumpyVectorStore) (e : EmbedderM)
    (q : String) (k : ℕ) (es : EmbSt) (qv : List ℚ) (pred : Embeddable → Bool)
    (hm : st.emb_matrix = some (st.texts.map (·.embedding)))
    (he : e.embed .query q = .ok qv)
    (hd : ∀ t ∈ st.texts, t.embedding.length = qv.length)
    (hne : st.texts.filter pred ≠ []) :
    similarity_search { st with texts_filter := some (st.texts.map pred) } e q (k : ℤ) es
      = (.ok (specTopK (st.texts.filter pred) qv k),
         if k = 0 then es else ⟨.document, es.calls + 1⟩) := by
  have hn1 : 1 ≤ st.texts.length := by
    rcases hx : st.texts with - | ⟨t, ts⟩
    · rw [hx] at hne
      simp at hne
    · simp
  by_cases hk0 : k = 0
  · subst hk0
    rw [if_pos rfl]
    have hz := similarity_search_k_zero { st with texts_filter := some (st.texts.map pred) }
      e q ((0 : ℕ) : ℤ) es (by simp)
    rw [hz]
    unfold specTopK
    simp
  · rw [if_neg hk0]
    have hmin : ¬ ((k : ℤ) ⊓ (st.texts.length : ℤ) = 0) := by omega
    unfold similarity_search embed_documents
    dsimp only
    rw [if_neg hmin, he]
    dsimp only
    rw [show ({ st with texts_filter := some (st.texts.map pred) } : NumpyVectorStore).emb_matrix
        = some (st.texts.map (·.embedding)) from hm]
    dsimp only
    rw [maskRows_map]
    rw [cosine_query_row qv _ (by
      intro r hr
      obtain ⟨t, ht, rfl⟩ := List.mem_map.mp hr
      exact hd t (List.mem_of_mem_filter ht))]
    dsimp only [List.getD_cons_zero]
    have hsub : (((st.texts.filter pred).map (·.embedding)).map
          (fun r => efDiv (dot qv r) (ratNorm qv * ratNorm r))).map EF.nanToNum
        = (st.texts.filter pred).map
          (fun t => EF.nanToNum (efDiv (dot qv t.embedding) (ratNorm qv * ratNorm t.embedding))) := by
      rw [List.map_map, List.map_map]
      rfl
    rw [hsub]
    have hsilen :
        (npArgsort (((st.texts.filter pred).map (fun t =>
            EF.nanToNum (efDiv (dot qv t.embedding)
              (ratNorm qv * ratNorm t.embedding)))).map EF.neg)).length
          = (st.texts.filter pred).length := by
      rw [npArgsort_length]
      simp
    have hclen : (st.texts.filter pred).length ≤ st.texts.length :=
      List.length_filter_le _ _
    have htake : ∀ {β : Type} (l : List β), l.length = (st.texts.filter pred).length →
        pyTake ((k : ℤ) ⊓ (st.texts.length : ℤ)) l = l.take k := by
      intro β l hl
      have h1 : (0 : ℤ) ≤ (k : ℤ) ⊓ (st.texts.length : ℤ) := by omega
      unfold pyTake
      rw [if_pos h1, List.take_eq_take]
      omega
    unfold specTopK
    dsimp only
    refine congrArg₂ _ (congrArg _ (congrArg₂ _ ?_ ?_)) rfl
    · rw [htake _ (by rw [List.length_map]; exact hsilen)]
      rw [← List.map_take, ← List.map_take, List.map_map]
      apply List.map_congr_left
      intro j _
      simp only [Function.comp_apply]
      exact maskIdx_getD st.texts pred j
    · rw [htake _ hsilen, List.map_take]

theorem partitionedGo_spec (st : NumpyVectorStore) (e : EmbedderM) (q : String)
    (k : ℕ) (qv : List ℚ) (f : Embeddable → ℤ)
    (hm : st.emb_matrix = some (st.texts.map (·.embedding)))
    (he : e.embed .query q = .ok qv)
    (hd : ∀ t ∈ st.texts, t.embedding.length = qv.length) :
    ∀ (keys : List ℤ) (accT : List (List Embeddable)) (accS : List (List EF)) (es : EmbSt),
      (∀ p ∈ keys, st.texts.filter (fun t => f t == p) ≠ []) →
      ∃ es', partitionedGo st e q (k : ℤ) (st.texts.map f) keys accT accS es
        = (.ok (pyTake (k : ℤ) (roundRobin (accT ++ keys.map (fun p =>
              (specTopK (st.texts.filter (fun t => f t == p)) qv k).1))),
            pyTake (k : ℤ) (roundRobin (accS ++ keys.map (fun p =>
              (specTopK (st.texts.filter (fun t => f t == p)) qv k).2)))),
           { st with texts_filter := none }, es') := by
  intro keys
  induction keys with
  | nil =>
    intro accT accS es hk
    exact ⟨es, by simp [partitionedGo]⟩
  | cons p rest ih =>
    intro accT accS es hk
    unfold partitionedGo
    dsimp only
    have hmask : (st.texts.map f).map (· == p) = st.texts.map (fun t => f t == p) := by
      rw [List.map_map]
      rfl
    rw [hmask]
    rcases hsp : specTopK (st.texts.filter (fun t => f t == p)) qv k with ⟨ts0, ss0⟩
    rw [similarity_search_filtered st e q k es qv (fun t => f t == p) hm he hd
      (hk p (by simp)), hsp]
    dsimp only
    obtain ⟨es', hrec⟩ := ih (accT ++ [ts0]) (accS ++ [ss0])
      (if k = 0 then es else ⟨.document, es.calls + 1⟩)
      (fun p2 hp2 => hk p2 (by simp [hp2]))
    refine ⟨es', ?_⟩
    rw [hrec]
    simp only [List.map_cons, hsp, List.append_assoc, List.singleton_append]

/-- Claim C5: for every corpus and partition key function (and a working,
deterministic embedder), `partitioned_similarity_search` returns exactly the
spec's description — the distinct partition keys in ascending order, a top-k
similarity search scoped to each partition's sub-corpus, the per-partition
result lists interleaved round-robin and truncated to k — and hands back the
store with no filter installed. -/
theorem partitioned_search_round_robin_merge (st : NumpyVectorStore)
    (e : EmbedderM) (q : String) (k : ℕ) (f : Embeddable → ℤ) (es : EmbSt)
    (qv : List ℚ)
    (hm : st.emb_matrix = some (st.texts.map (·.embedding)))
    (he : e.embed .query q = .ok qv)
    (hd : ∀ t ∈ st.texts, t.embedding.length = qv.length) :
    ∃ es', partitioned_similarity_search st e q (k : ℤ) f es
      = (.ok (specPartitionedTopK st.texts f qv k),
         { st with texts_filter := none }, es') := by
  unfold partitioned_similarity_search
  have hkeys : ∀ p ∈ uniqueSorted (st.texts.map f),
      st.texts.filter (fun t => f t == p) ≠ [] := by
    intro p hp
    rw [mem_uniqueSorted] at hp
    obtain ⟨t, ht, hft⟩ := List.mem_map.mp hp
    intro hcon
    rw [List.filter_eq_nil_iff] at hcon
    exact hcon t ht (by simp [hft])
  obtain ⟨es', hgo⟩ := partitionedGo_spec st e q k qv f hm he hd
    (uniqueSorted (st.texts.map f)) [] [] es hkeys
  refine ⟨es', ?_⟩
  rw [hgo]
  unfold specPartitionedTopK
  dsimp only
  rw [pyTake_ofNat, pyTake_ofNat]
  simp only [List.nil_append, List.map_map]
  rfl

/-- Witness for `partitioned_search_round_robin_merge`: the spec's own example,
partitions A (3 items, relevances 1, 4/5, 3/5) and B (1 item, relevance 0)
with k = 4: the merge yields A0, B0, A1, A2 — never all of A before B. -/
theorem partitioned_search_round_robin_merge_witness :
    (∃ es', partitioned_similarity_search
        ⟨1, ∅, [⟨0, [1, 0]⟩, ⟨1, [4, 3]⟩, ⟨2, [3, 4]⟩, ⟨3, [0, 1]⟩],
         some [[1, 0], [4, 3], [3, 4], [0, 1]], none⟩
        ⟨fun _ _ => .ok [1, 0]⟩ "q" ((4 : ℕ) : ℤ)
        (fun t => if t.payload = 3 then 1 else 0) ⟨.document, 0⟩
      = (.ok (specPartitionedTopK [⟨0, [1, 0]⟩, ⟨1, [4, 3]⟩, ⟨2, [3, 4]⟩, ⟨3, [0, 1]⟩]
            (fun t => if t.payload = 3 then 1 else 0) [1, 0] 4),
         ⟨1, ∅, [⟨0, [1, 0]⟩, ⟨1, [4, 3]⟩, ⟨2, [3, 4]⟩, ⟨3, [0, 1]⟩],
          some [[1, 0], [4, 3], [3, 4], [0, 1]], none⟩, es')) ∧
    specPartitionedTopK [⟨0, [1, 0]⟩, ⟨1, [4, 3]⟩, ⟨2, [3, 4]⟩, ⟨3, [0, 1]⟩]
        (fun t => if t.payload = 3 then 1 else 0) [1, 0] 4
      = ([⟨0, [1, 0]⟩, ⟨3, [0, 1]⟩, ⟨1, [4, 3]⟩, ⟨2, [3, 4]⟩],
         [EF.fin 1, EF.fin 0, EF.fin (4 / 5), EF.fin (3 / 5)]) :=
  ⟨partitioned_search_round_robin_merge
      ⟨1, ∅, [⟨0, [1, 0]⟩, ⟨1, [4, 3]⟩, ⟨2, [3, 4]⟩, ⟨3, [0, 1]⟩],
       some [[1, 0], [4, 3], [3, 4], [0, 1]], none⟩
      ⟨fun _ _ => .ok [1, 0]⟩ "q" 4 (fun t => if t.payload = 3 then 1 else 0)
      ⟨.document, 0⟩ [1, 0] rfl rfl (by decide),
    by with_unfolding_all decide⟩

end PaperQA
